import Mathlib

set_option linter.unusedVariables false

/-! Shallow embedding of the nanobot file-edit engine
(`src/nanobot/agent/tools/filesystem.py`) and of the skill parameter-schema
builder (`src/nanobot/agent/tools/skill.py`).  Python strings are modelled as
lists of characters; file I/O is abstracted away: the pure core of
`EditFileTool.execute` receives the file content and returns an outcome whose
`success` constructor carries the content that would be written back. -/

/-- A Python `str` value, modelled as its list of characters. -/
abbrev PyStr := List Char

/-- Characters that Python `str.splitlines` treats as line boundaries
(in addition, the pair `\r\n` is consumed as a single boundary). -/
def isLineBreakChar (c : Char) : Bool :=
  c.toNat ∈ [10, 11, 12, 13, 28, 29, 30, 133, 8232, 8233]

/-- Helper for `pySplitlines`; `acc` holds the current partial line, reversed. -/
def splitlinesAux : List Char → List Char → List PyStr
  | [], acc => if acc.isEmpty then [] else [acc.reverse]
  | '\r' :: '\n' :: rest, acc => (acc.reverse ++ ['\r', '\n']) :: splitlinesAux rest []
  | c :: rest, acc =>
      if isLineBreakChar c then (acc.reverse ++ [c]) :: splitlinesAux rest []
      else splitlinesAux rest (c :: acc)

/-- Python `str.splitlines(keepends=True)`: split at line boundaries, keeping
each terminator attached to its line.  (`splitlines()` without `keepends`
yields the same number of lines, which is all the source uses it for.) -/
def pySplitlines (s : PyStr) : List PyStr := splitlinesAux s []

/-- `s` occurs in `c` at position `i` as a raw substring. -/
def OccursAt (c s : PyStr) (i : Nat) : Prop :=
  i + s.length ≤ c.length ∧ (c.drop i).take s.length = s

instance (c s : PyStr) (i : Nat) : Decidable (OccursAt c s i) := by
  unfold OccursAt; infer_instance

/-- All positions at which `s` occurs in `c`, in increasing order. -/
def occPositions (c s : PyStr) : List Nat :=
  (List.range (c.length + 1)).filter (fun i => decide (OccursAt c s i))

/-- Python substring containment `s in c`. -/
def pyContains (c s : PyStr) : Bool := !(occPositions c s).isEmpty

/-- Chain step of Python `str.count`: find the leftmost occurrence, then keep
scanning right after it (non-overlapping scan).  `fuel` bounds the recursion;
`c.length + 1` is always enough for a non-empty pattern. -/
def pyCountAux (s : PyStr) : Nat → PyStr → Nat
  | 0, _ => 0
  | fuel + 1, c =>
      match (occPositions c s).head? with
      | none => 0
      | some i => 1 + pyCountAux s fuel (c.drop (i + s.length))

/-- Python `str.count`: number of non-overlapping occurrences, scanning left to
right; for the empty pattern Python returns `len(c) + 1`. -/
def pyCount (c s : PyStr) : Nat :=
  if s.isEmpty then c.length + 1 else pyCountAux s (c.length + 1) c

/-- Python `str.replace(old, new, 1)`: replace the leftmost occurrence (for an
empty `old`, Python inserts `new` in front, which the same formula yields). -/
def pyReplace1 (c s t : PyStr) : PyStr :=
  match (occPositions c s).head? with
  | none => c
  | some i => c.take i ++ t ++ c.drop (i + s.length)

/-- The result triple of difflib's `find_longest_match` (`Match(a, b, size)`). -/
structure MatchSpan where
  a : Nat
  b : Nat
  size : Nat
deriving DecidableEq

/-- Lookup in an association list, defaulting to `0` (Python `dict.get(k, 0)`
over a dict whose keys are the inserted `Nat` indices). -/
def lookupD : List (Nat × Nat) → Nat → Nat
  | [], _ => 0
  | (k, v) :: rest, j => if k = j then v else lookupD rest j

/-- Ascending indices of `x` in `b`: a `b2j` entry before the autojunk pass. -/
def bIndices [DecidableEq α] (b : List α) (x : α) : List Nat :=
  (List.range b.length).filter (fun j => decide (b.get? j = some x))

/-- difflib `b2j` lookup (built by `__chain_b` with `isjunk=None`), including
the autojunk heuristic: when `b` has at least 200 elements, an element whose
index list is longer than `len(b) // 100 + 1` is "popular" and removed. -/
def b2jGet [DecidableEq α] (b : List α) (x : α) : List Nat :=
  let idxs := bIndices b x
  if 200 ≤ b.length ∧ b.length / 100 + 1 < idxs.length then [] else idxs

/-- Inner loop of `find_longest_match` over `b2j.get(a[i])`.  `jold` is the
previous row dictionary `j2len`, `acc` the row `newj2len` being built; the
`j = 0` case mirrors Python's `j2len.get(-1, 0) = 0` (the key `-1` is never
present).  The two guards mirror `if j < blo: continue` and
`if j >= bhi: break` (the index list is ascending). -/
def flmInner (i blo bhi : Nat) :
    List Nat → List (Nat × Nat) → List (Nat × Nat) → MatchSpan →
    List (Nat × Nat) × MatchSpan
  | [], _, acc, best => (acc, best)
  | j :: js, jold, acc, best =>
      if j < blo then flmInner i blo bhi js jold acc best
      else if bhi ≤ j then (acc, best)
      else
        let k := (if j = 0 then 0 else lookupD jold (j - 1)) + 1
        let best' := if best.size < k then ⟨i + 1 - k, j + 1 - k, k⟩ else best
        flmInner i blo bhi js jold (acc ++ [(j, k)]) best'

/-- Outer loop of `find_longest_match`: `for i in range(alo, ahi)` over the
elements of the `a`-slice, threading `j2len` and the running best. -/
def flmOuter [DecidableEq α] (b2jf : α → List Nat) (blo bhi : Nat) :
    List α → Nat → List (Nat × Nat) → MatchSpan → MatchSpan
  | [], _, _, best => best
  | x :: rest, i, j2len, best =>
      let p := flmInner i blo bhi (b2jf x) j2len [] best
      flmOuter b2jf blo bhi rest (i + 1) p.1 p.2

/-- Is `a[i] == b[j]`, with both indices in range? -/
def matchAt [DecidableEq α] (a b : List α) (i j : Nat) : Bool :=
  (a.get? i).isSome && decide (a.get? i = b.get? j)

/-- The first extension loop of `find_longest_match`: with `isjunk=None` the
junk set is empty, so the match is extended while the adjacent elements are
equal (`while besti > alo and bestj > blo and not isbjunk(...) and
a[besti-1] == b[bestj-1]`).  The second pair of while loops, which require
`isbjunk(...)` to hold, never runs.  `fuel = besti` always suffices, as each
step decrements `besti`. -/
def flmExtendBack [DecidableEq α] (a b : List α) (alo blo : Nat) :
    Nat → Nat → Nat → Nat → Nat × Nat × Nat
  | 0, bi, bj, sz => (bi, bj, sz)
  | fuel + 1, bi, bj, sz =>
      if alo < bi ∧ blo < bj ∧ matchAt a b (bi - 1) (bj - 1) then
        flmExtendBack a b alo blo fuel (bi - 1) (bj - 1) (sz + 1)
      else (bi, bj, sz)

/-- Forward extension loop (`while besti+bestsize < ahi and ... and
a[besti+bestsize] == b[bestj+bestsize]: bestsize += 1`).  `fuel = ahi`
always suffices, as `besti + bestsize` grows by 1 per step and stays
below `ahi`. -/
def flmExtendFwd [DecidableEq α] (a b : List α) (ahi bhi bi bj : Nat) :
    Nat → Nat → Nat
  | 0, sz => sz
  | fuel + 1, sz =>
      if bi + sz < ahi ∧ bj + sz < bhi ∧ matchAt a b (bi + sz) (bj + sz) then
        flmExtendFwd a b ahi bhi bi bj fuel (sz + 1)
      else sz

/-- Python slice `l[i:j]` (for `0 ≤ i ≤ j`). -/
def pySlice (l : List α) (i j : Nat) : List α := (l.drop i).take (j - i)

/-- difflib `SequenceMatcher(None, a, b).find_longest_match(alo, ahi, blo, bhi)`. -/
def findLongestMatchRanged [DecidableEq α] (a b : List α)
    (alo ahi blo bhi : Nat) : MatchSpan :=
  let core := flmOuter (b2jGet b) blo bhi (pySlice a alo ahi) alo [] ⟨alo, blo, 0⟩
  let back := flmExtendBack a b alo blo core.a core.a core.b core.size
  let sz := flmExtendFwd a b ahi bhi back.1 back.2.1 ahi back.2.2
  ⟨back.1, back.2.1, sz⟩

/-- The matcher call made by `_find_best_match`:
`find_longest_match(0, len(content_lines), 0, len(old_lines))`. -/
def findLongestMatchFull [DecidableEq α] (a b : List α) : MatchSpan :=
  findLongestMatchRanged a b 0 a.length 0 b.length

/-- Lexicographic order on the `(i, j, size)` triples sorted by
`matching_blocks.sort()`. -/
def tripleLE (p q : Nat × Nat × Nat) : Bool :=
  decide (p.1 < q.1 ∨ (p.1 = q.1 ∧
    (p.2.1 < q.2.1 ∨ (p.2.1 = q.2.1 ∧ p.2.2 ≤ q.2.2))))

def insertTriple (x : Nat × Nat × Nat) :
    List (Nat × Nat × Nat) → List (Nat × Nat × Nat)
  | [] => [x]
  | y :: rest => if tripleLE x y then x :: y :: rest else y :: insertTriple x rest

/-- Ascending sort of the collected matching blocks (Python `list.sort()` on
triples; the keys are pairwise distinct, so any correct sort agrees). -/
def sortTriples : List (Nat × Nat × Nat) → List (Nat × Nat × Nat)
  | [] => []
  | x :: rest => insertTriple x (sortTriples rest)

/-- The queue loop of difflib `get_matching_blocks`.  The queue is a stack
(`list.pop()` takes the last element), modelled head-first.  `fuel` of
`la + lb + 1` bounds the pops: a popped range of size `s` contributes children
of total size at most `s - 2`, so the potential (sum of sizes plus queue
length) strictly decreases with every pop. -/
def gmbLoop [DecidableEq α] (a b : List α) :
    Nat → List (Nat × Nat × Nat × Nat) → List (Nat × Nat × Nat) →
    List (Nat × Nat × Nat)
  | 0, _, acc => acc
  | _ + 1, [], acc => acc
  | fuel + 1, (alo, ahi, blo, bhi) :: rest, acc =>
      let m := findLongestMatchRanged a b alo ahi blo bhi
      if m.size = 0 then gmbLoop a b fuel rest acc
      else
        let rest1 := if alo < m.a ∧ blo < m.b then (alo, m.a, blo, m.b) :: rest else rest
        let rest2 :=
          if m.a + m.size < ahi ∧ m.b + m.size < bhi then
            (m.a + m.size, ahi, m.b + m.size, bhi) :: rest1
          else rest1
        gmbLoop a b fuel rest2 ((m.a, m.b, m.size) :: acc)

/-- The second phase of `get_matching_blocks`: merge adjacent blocks; a block
is emitted only when its accumulated size `k1` is non-zero. -/
def mergeAdjacent : Nat × Nat × Nat → List (Nat × Nat × Nat) → List (Nat × Nat × Nat)
  | (i1, j1, k1), [] => if k1 ≠ 0 then [(i1, j1, k1)] else []
  | (i1, j1, k1), (i2, j2, k2) :: rest =>
      if i1 + k1 = i2 ∧ j1 + k1 = j2 then mergeAdjacent (i1, j1, k1 + k2) rest
      else if k1 ≠ 0 then (i1, j1, k1) :: mergeAdjacent (i2, j2, k2) rest
      else mergeAdjacent (i2, j2, k2) rest

/-- difflib `get_matching_blocks`, ending with the `(la, lb, 0)` sentinel. -/
def getMatchingBlocks [DecidableEq α] (a b : List α) : List (Nat × Nat × Nat) :=
  let raw := gmbLoop a b (a.length + b.length + 1) [(0, a.length, 0, b.length)] []
  mergeAdjacent (0, 0, 0) (sortTriples raw) ++ [(a.length, b.length, 0)]

inductive OpTag where
  | replace
  | delete
  | insert
  | equal
deriving DecidableEq

/-- One opcode `(tag, i1, i2, j1, j2)` of difflib `get_opcodes`. -/
structure Op where
  tag : OpTag
  i1 : Nat
  i2 : Nat
  j1 : Nat
  j2 : Nat
deriving DecidableEq

def opcodesLoop : Nat → Nat → List (Nat × Nat × Nat) → List Op
  | _, _, [] => []
  | i, j, (ai, bj, size) :: rest =>
      let pre : List Op :=
        if i < ai ∧ j < bj then [⟨.replace, i, ai, j, bj⟩]
        else if i < ai then [⟨.delete, i, ai, j, bj⟩]
        else if j < bj then [⟨.insert, i, ai, j, bj⟩]
        else []
      let eqPart : List Op :=
        if size ≠ 0 then [⟨.equal, ai, ai + size, bj, bj + size⟩] else []
      pre ++ eqPart ++ opcodesLoop (ai + size) (bj + size) rest

/-- difflib `get_opcodes`. -/
def getOpcodes [DecidableEq α] (a b : List α) : List Op :=
  opcodesLoop 0 0 (getMatchingBlocks a b)

def mapLast (f : α → α) : List α → List α
  | [] => []
  | [x] => [f x]
  | x :: y :: rest => x :: mapLast f (y :: rest)

/-- `get_grouped_opcodes`: clip a leading `equal` opcode to `n` context lines. -/
def clipHead (n : Nat) : List Op → List Op
  | [] => []
  | o :: rest =>
      (if o.tag = .equal then ⟨o.tag, max o.i1 (o.i2 - n), o.i2, max o.j1 (o.j2 - n), o.j2⟩
       else o) :: rest

/-- `get_grouped_opcodes`: clip a trailing `equal` opcode to `n` context lines. -/
def clipLast (n : Nat) (codes : List Op) : List Op :=
  mapLast (fun o =>
    if o.tag = .equal then ⟨o.tag, o.i1, min o.i2 (o.i1 + n), o.j1, min o.j2 (o.j1 + n)⟩
    else o) codes

/-- Grouping loop of `get_grouped_opcodes`: split at big `equal` gaps; the
final group is kept unless it is a single `equal` opcode. -/
def groupLoop (n : Nat) : List Op → List Op → List (List Op)
  | [], grp =>
      if grp ≠ [] ∧ ¬(grp.length = 1 ∧ (grp.headD ⟨.equal, 0, 0, 0, 0⟩).tag = .equal) then
        [grp]
      else []
  | o :: rest, grp =>
      if o.tag = .equal ∧ n + n < o.i2 - o.i1 then
        (grp ++ [⟨o.tag, o.i1, min o.i2 (o.i1 + n), o.j1, min o.j2 (o.j1 + n)⟩]) ::
          groupLoop n rest [⟨o.tag, max o.i1 (o.i2 - n), o.i2, max o.j1 (o.j2 - n), o.j2⟩]
      else groupLoop n rest (grp ++ [o])

/-- difflib `get_grouped_opcodes(n)`. -/
def getGroupedOpcodes [DecidableEq α] (a b : List α) (n : Nat) : List (List Op) :=
  let codes := getOpcodes a b
  let codes := if codes.isEmpty then [⟨.equal, 0, 1, 0, 1⟩] else codes
  groupLoop n (clipLast n (clipHead n codes)) []

/-- difflib `_format_range_unified`. -/
def formatRangeUnified (start stop : Nat) : PyStr :=
  if stop - start = 1 then (Nat.repr (start + 1)).data
  else
    (Nat.repr (if stop - start = 0 then start else start + 1)).data ++ [','] ++
      (Nat.repr (stop - start)).data

/-- The lines `unified_diff` yields for one opcode. -/
def opLines (a b : List PyStr) (o : Op) : List PyStr :=
  match o.tag with
  | .equal => (pySlice a o.i1 o.i2).map (fun l => ' ' :: l)
  | .replace =>
      (pySlice a o.i1 o.i2).map (fun l => '-' :: l) ++
        (pySlice b o.j1 o.j2).map (fun l => '+' :: l)
  | .delete => (pySlice a o.i1 o.i2).map (fun l => '-' :: l)
  | .insert => (pySlice b o.j1 o.j2).map (fun l => '+' :: l)

/-- The hunk `unified_diff` yields for one group: the `@@` header, then the
per-opcode lines. -/
def hunkLines (a b : List PyStr) (grp : List Op) : List PyStr :=
  match grp with
  | [] => []
  | first :: _ =>
      let last := grp.getLastD first
      (("@@ -").data ++ formatRangeUnified first.i1 last.i2 ++ (" +").data ++
        formatRangeUnified first.j1 last.j2 ++ (" @@").data) ::
        (grp.map (opLines a b)).flatten

/-- difflib `unified_diff(a, b, fromfile, tofile, lineterm="")` with empty
file dates, as the list of yielded lines. -/
def unifiedDiff (a b : List PyStr) (fromfile tofile : PyStr) : List PyStr :=
  let groups := getGroupedOpcodes a b 3
  if groups.isEmpty then []
  else
    (("--- ").data ++ fromfile) :: (("+++ ").data ++ tofile) ::
      (groups.map (hunkLines a b)).flatten

/-- Python `"sep".join(parts)`. -/
def joinSep (sep : PyStr) : List PyStr → PyStr
  | [] => []
  | [x] => x
  | x :: y :: rest => x ++ sep ++ joinSep sep (y :: rest)

/-- Characters for which Python `str.isspace()` is true (the set stripped by
`str.rstrip()` with no argument). -/
def pyIsSpace (c : Char) : Bool :=
  c.toNat ∈ [9, 10, 11, 12, 13, 28, 29, 30, 31, 32, 133, 160, 5760,
    8192, 8193, 8194, 8195, 8196, 8197, 8198, 8199, 8200, 8201, 8202,
    8232, 8233, 8239, 8287, 12288]

/-- Python `str.rstrip()`: drop trailing whitespace. -/
def pyRstrip (s : PyStr) : PyStr := (s.reverse.dropWhile pyIsSpace).reverse

/-- Index of the first pair that is equal after `rstrip` but different raw. -/
def twFirstIdx : List (PyStr × PyStr) → Option Nat
  | [] => none
  | (x, y) :: rest =>
      if pyRstrip x = pyRstrip y ∧ x ≠ y then some 0
      else (twFirstIdx rest).map (· + 1)

/-- The trailing-whitespace hint loop of `_find_best_match` (lines 52-57):
enumerate `zip(content_lines[best.a:], old_lines)`, emit one hint at the first
pair whose lines agree after stripping trailing whitespace but differ raw,
naming the 1-based file line `best.a + i + 1`, and stop scanning. -/
def trailingWsHint (contentLines oldLines : List PyStr) (besta : Nat) : List PyStr :=
  match twFirstIdx ((contentLines.drop besta).zip oldLines) with
  | some t =>
      [("Line ").data ++ (Nat.repr (besta + t + 1)).data ++
        (": trailing whitespace differs").data]
  | none => []

def crlfStr : PyStr := ['\r', '\n']

/-- The CRLF/LF hint of `_find_best_match` (lines 58-62): `if`/`elif`, so the
two hints are mutually exclusive. -/
def crlfHints (content old : PyStr) : List PyStr :=
  if pyContains content crlfStr && !pyContains old crlfStr then
    [("File uses CRLF line endings but old_text uses LF").data]
  else if !pyContains content crlfStr && pyContains old crlfStr then
    [("File uses LF line endings but old_text uses CRLF").data]
  else []

def noMatchHeader : PyStr := ("No matching lines found. File starts with:\n").data

/-- `"".join(f"  {i + 1}: {line}" for i, line in enumerate(preview))`. -/
def numberedPreview (lines : List PyStr) : PyStr :=
  ((lines.enum).map
    (fun p => ("  ").data ++ (Nat.repr (p.1 + 1)).data ++ (": ").data ++ p.2)).flatten

/-- `f"Closest match near line {best.a + 1}:"`. -/
def headerLine (besta : Nat) : PyStr :=
  ("Closest match near line ").data ++ (Nat.repr (besta + 1)).data ++ (":").data

/-- `_find_best_match(content, old_text, max_context)`
(filesystem.py lines 18-70). -/
def findBestMatch (content old : PyStr) (maxContext : Nat) : PyStr :=
  let oldLines := pySplitlines old
  let contentLines := pySplitlines content
  if oldLines.isEmpty || contentLines.isEmpty then []
  else
    let best := findLongestMatchFull contentLines oldLines
    if best.size = 0 then noMatchHeader ++ numberedPreview (contentLines.take maxContext)
    else
      let start := best.a - maxContext
      let stop := min contentLines.length (best.a + best.size + maxContext)
      let region := pySlice contentLines start stop
      let diffText := joinSep ['\n']
        ((unifiedDiff region oldLines ("file (closest region)").data
          ("old_text (your input)").data).take 30)
      let hints := trailingWsHint contentLines oldLines best.a ++ crlfHints content old
      let parts := [headerLine best.a] ++
        (if diffText.isEmpty then [] else [diffText]) ++
        (if hints.isEmpty then []
         else [("Hints: ").data ++ joinSep (("; ").data) hints])
      joinSep ['\n'] parts

/-- Outcome of the edit engine.  `success` carries the new file content that
`EditFileTool.execute` writes back; `ambiguous` carries the occurrence count of
the warning message; `noMatch` carries the line counts and the diagnostic
detail of the error message.  No write happens except on `success`. -/
inductive EditOutcome where
  | success (newContent : PyStr)
  | ambiguous (count : Nat)
  | noMatch (oldLineCount fileLineCount : Nat) (detail : PyStr)
deriving DecidableEq

/-- The pure core of `EditFileTool.execute` (filesystem.py lines 200-224),
given the file content `c` already read from disk. -/
def applyEdit (c old new : PyStr) : EditOutcome :=
  if !pyContains c old then
    .noMatch (pySplitlines old).length (pySplitlines c).length (findBestMatch c old 5)
  else if 1 < pyCount c old then .ambiguous (pyCount c old)
  else .success (pyReplace1 c old new)

/-- Lexical model of `Path(path).expanduser().resolve()` on an absolute POSIX
path given as segments (which may contain `".."`, `"."` or empty segments),
on a symlink-free filesystem: `".."` pops one segment (staying at the root if
already there), `"."` and empty segments vanish.  `expanduser` is the identity
on absolute paths, and `resolve` does not consult the working directory for
them. -/
def resolveSegs : List PyStr → List PyStr → List PyStr
  | acc, [] => acc.reverse
  | acc, seg :: rest =>
      if seg = (".").data ∨ seg = [] then resolveSegs acc rest
      else if seg = ("..").data then resolveSegs acc.tail rest
      else resolveSegs (seg :: acc) rest

/-- `str(p)` for a resolved absolute path: `/` joined segments, `/` if none. -/
def renderPath (segs : List PyStr) : PyStr :=
  if segs.isEmpty then ['/'] else (segs.map (fun s => '/' :: s)).flatten

inductive ResolveResult where
  | ok (resolved : List PyStr)
  | permissionDenied
deriving DecidableEq

/-- `_resolve_path(path, allowed_dir)` (filesystem.py lines 10-15): resolve,
then require `str(resolved).startswith(str(allowed_dir.resolve()))`, raising
`PermissionError` otherwise. -/
def resolvePathChecked (path : List PyStr) (allowed : Option (List PyStr)) :
    ResolveResult :=
  let resolved := resolveSegs [] path
  match allowed with
  | none => .ok resolved
  | some root =>
      let rootR := resolveSegs [] root
      if (renderPath rootR).isPrefixOf (renderPath resolved) then .ok resolved
      else .permissionDenied

/-- `resolved` lies inside the directory `root` (both as resolved segment
lists): `root`'s segments are an initial segment of `resolved`'s. -/
def InsideDir (root resolved : List PyStr) : Prop :=
  ∃ rest, resolved = root ++ rest

/-- A Python type annotation as far as `_build_params` inspects it: one of the
six mapped builtins, some other annotation, or absent
(`inspect.Parameter.empty`). -/
inductive PyAnn where
  | pystr
  | pyint
  | pyfloat
  | pybool
  | pylist
  | pydict
  | otherAnn (name : String)
  | empty
deriving DecidableEq

/-- One declared parameter of the wrapped function: its name, annotation, and
whether it has a default value. -/
structure PyParam where
  name : String
  ann : PyAnn
  hasDefault : Bool
deriving DecidableEq

/-- `type_map.get(annotation, "string")` preceded by the
`annotation != inspect.Parameter.empty` check (skill.py lines 38-53). -/
def jsonTypeOf : PyAnn → String
  | .pystr => "string"
  | .pyint => "integer"
  | .pyfloat => "number"
  | .pybool => "boolean"
  | .pylist => "array"
  | .pydict => "object"
  | .otherAnn _ => "string"
  | .empty => "string"

/-- `SkillFunctionTool._build_params` (skill.py lines 33-62): walk the
signature's parameters in order, skip `self`/`cls`, record
`(name, json_type, description=name)` properties, and append defaultless
parameters to `required`. -/
def buildParams (ps : List PyParam) : List (String × String × String) × List String :=
  ps.foldl
    (fun acc p =>
      if p.name = "self" ∨ p.name = "cls" then acc
      else
        (acc.1 ++ [(p.name, jsonTypeOf p.ann, p.name)],
         acc.2 ++ if p.hasDefault then [] else [p.name]))
    ([], [])

/-- `(i, j, k)` is a common contiguous block of `a` and `b`: `k` consecutive
elements starting at `i` in `a` and at `j` in `b` coincide. -/
def isBlock (a b : List α) (i j k : Nat) : Prop :=
  i + k ≤ a.length ∧ j + k ≤ b.length ∧ ∀ t, t < k → a.get? (i + t) = b.get? (j + t)

instance [DecidableEq α] (a b : List α) (i j k : Nat) : Decidable (isBlock a b i j k) := by
  unfold isBlock; infer_instance

/-- Length of the longest common block of `a` and `b` that ends exactly at
positions `i` (in `a`) and `j` (in `b`), both inclusive. -/
def endLen [DecidableEq α] (a b : List α) : Nat → Nat → Nat
  | 0, j => if matchAt a b 0 j then 1 else 0
  | i + 1, 0 => if matchAt a b (i + 1) 0 then 1 else 0
  | i + 1, j + 1 => if matchAt a b (i + 1) (j + 1) then endLen a b i j + 1 else 0

lemma matchAt_iff [DecidableEq α] {a b : List α} {i j : Nat} :
    matchAt a b i j = true ↔ (a.get? i).isSome ∧ a.get? i = b.get? j := by
  simp [matchAt]

lemma matchAt_lt_length [DecidableEq α] {a b : List α} {i j : Nat}
    (h : matchAt a b i j = true) : i < a.length ∧ j < b.length := by
  rw [matchAt_iff] at h
  obtain ⟨h1, h2⟩ := h
  constructor
  · by_contra hc
    rw [List.get?_eq_none.2 (Nat.le_of_not_lt hc)] at h1
    simp at h1
  · by_contra hc
    rw [h2, List.get?_eq_none.2 (Nat.le_of_not_lt hc)] at h1
    simp at h1

lemma endLen_eq_zero [DecidableEq α] {a b : List α} {i j : Nat}
    (h : matchAt a b i j = false) : endLen a b i j = 0 := by
  match i, j with
  | 0, j => simp [endLen, h]
  | i + 1, 0 => simp [endLen, h]
  | i + 1, j + 1 => simp [endLen, h]

lemma matchAt_of_endLen_pos [DecidableEq α] {a b : List α} {i j : Nat}
    (h : 1 ≤ endLen a b i j) : matchAt a b i j = true := by
  by_contra hc
  rw [endLen_eq_zero (Bool.eq_false_iff.2 hc)] at h
  omega

lemma endLen_le_left [DecidableEq α] (a b : List α) (i j : Nat) :
    endLen a b i j ≤ i + 1 := by
  induction i generalizing j with
  | zero => cases j <;> simp [endLen] <;> split <;> omega
  | succ i ih =>
      cases j with
      | zero => simp only [endLen]; split <;> omega
      | succ j => simp only [endLen]; split
                  · have := ih j; omega
                  · omega

lemma endLen_le_right [DecidableEq α] (a b : List α) (i j : Nat) :
    endLen a b i j ≤ j + 1 := by
  induction i generalizing j with
  | zero => cases j <;> simp [endLen] <;> split <;> omega
  | succ i ih =>
      cases j with
      | zero => simp only [endLen]; split <;> omega
      | succ j => simp only [endLen]; split
                  · have := ih j; omega
                  · omega

lemma one_le_endLen_of_matchAt [DecidableEq α] {a b : List α} {i j : Nat}
    (h : matchAt a b i j = true) : 1 ≤ endLen a b i j := by
  match i, j with
  | 0, j => simp [endLen, h]
  | i + 1, 0 => simp [endLen, h]
  | i + 1, j + 1 => simp [endLen, h]

lemma isBlock_of_endLen [DecidableEq α] (a b : List α) :
    ∀ (k i j : Nat), 1 ≤ k → k ≤ endLen a b i j →
      isBlock a b (i + 1 - k) (j + 1 - k) k := by
  intro k
  induction k with
  | zero => intro i j h; omega
  | succ k ih =>
      intro i j hpos hle
      have hmatch : matchAt a b i j = true := matchAt_of_endLen_pos (by omega)
      have hlt := matchAt_lt_length hmatch
      have hget : a.get? i = b.get? j := (matchAt_iff.1 hmatch).2
      cases Nat.eq_zero_or_pos k with
      | inl hk0 =>
          subst hk0
          refine ⟨by omega, by omega, ?_⟩
          intro t ht
          have ht0 : t = 0 := by omega
          subst ht0
          have hi : i + 1 - 1 + 0 = i := by omega
          have hj : j + 1 - 1 + 0 = j := by omega
          rw [hi, hj]; exact hget
      | inr hkpos =>
          match i, j with
          | 0, j =>
              exfalso
              have := endLen_le_left a b 0 j
              omega
          | i + 1, 0 =>
              exfalso
              have := endLen_le_right a b (i + 1) 0
              omega
          | i + 1, j + 1 =>
              have hrec : endLen a b (i + 1) (j + 1) = endLen a b i j + 1 := by
                simp [endLen, hmatch]
              have hk' : k ≤ endLen a b i j := by omega
              have hblk := ih i j hkpos hk'
              obtain ⟨hb1, hb2, hb3⟩ := hblk
              have hki : k ≤ i + 1 := le_trans hk' (endLen_le_left a b i j)
              have hkj : k ≤ j + 1 := le_trans hk' (endLen_le_right a b i j)
              refine ⟨by omega, by omega, ?_⟩
              intro t ht
              by_cases htk : t < k
              · have e1 : i + 1 + 1 - (k + 1) + t = i + 1 - k + t := by omega
                have e2 : j + 1 + 1 - (k + 1) + t = j + 1 - k + t := by omega
                rw [e1, e2]
                exact hb3 t htk
              · have htk' : t = k := by omega
                have e1 : i + 1 + 1 - (k + 1) + t = i + 1 := by omega
                have e2 : j + 1 + 1 - (k + 1) + t = j + 1 := by omega
                rw [e1, e2]
                exact hget

lemma endLen_of_isBlock [DecidableEq α] (a b : List α) :
    ∀ (k i j : Nat), isBlock a b i j k → 1 ≤ k →
      k ≤ endLen a b (i + k - 1) (j + k - 1) := by
  intro k
  induction k with
  | zero => intro i j _ h; omega
  | succ k ih =>
      intro i j hblk hpos
      obtain ⟨hb1, hb2, hb3⟩ := hblk
      have hlast : a.get? (i + k) = b.get? (j + k) := hb3 k (by omega)
      have hisSome : (a.get? (i + k)).isSome := by
        have : i + k < a.length := by omega
        rw [List.get?_eq_get this]; simp
      have hmatch : matchAt a b (i + k) (j + k) = true :=
        matchAt_iff.2 ⟨hisSome, hlast⟩
      cases Nat.eq_zero_or_pos k with
      | inl hk0 =>
          subst hk0
          have e1 : i + 1 - 1 = i := by omega
          have e2 : j + 1 - 1 = j := by omega
          rw [e1, e2]
          have := one_le_endLen_of_matchAt (a := a) (b := b) (i := i) (j := j)
          simp only [Nat.add_zero] at hmatch
          exact this hmatch
      | inr hkpos =>
          have hsub : isBlock a b i j k :=
            ⟨by omega, by omega, fun t ht => hb3 t (by omega)⟩
          have hrec := ih i j hsub hkpos
          have e1 : i + (k + 1) - 1 = (i + k - 1) + 1 := by omega
          have e2 : j + (k + 1) - 1 = (j + k - 1) + 1 := by omega
          rw [e1, e2]
          have em : matchAt a b ((i + k - 1) + 1) ((j + k - 1) + 1) = true := by
            have e3 : i + k - 1 + 1 = i + k := by omega
            have e4 : j + k - 1 + 1 = j + k := by omega
            rw [e3, e4]; exact hmatch
          simp only [endLen, em, if_true]
          omega

/-- `best` is the running optimum of the `find_longest_match` scan over the
end-position pairs in `D`: either nothing matched yet, or `best` names a pair
`(i, j)` of end positions achieving the maximal `endLen` over `D`, chosen
lexicographically first (the scan runs `i` ascending, then `j` ascending, and
updates only on strict improvement). -/
def optimalAt [DecidableEq α] (a b : List α) (D : Nat → Nat → Prop)
    (best : MatchSpan) : Prop :=
  (best = ⟨0, 0, 0⟩ ∧ ∀ i j, D i j → endLen a b i j = 0) ∨
  (∃ i j, D i j ∧ endLen a b i j = best.size ∧ 1 ≤ best.size ∧
    best.a = i + 1 - best.size ∧ best.b = j + 1 - best.size ∧
    (∀ p q, D p q → endLen a b p q ≤ best.size) ∧
    (∀ p q, D p q → endLen a b p q = best.size → i < p ∨ (i = p ∧ j ≤ q)))

lemma optimalAt_extend [DecidableEq α] {a b : List α}
    {D D' : Nat → Nat → Prop} {best : MatchSpan}
    (hsub : ∀ i j, D' i j → D i j ∨ endLen a b i j = 0)
    (hwit : ∀ i j, D i j → 1 ≤ endLen a b i j → D' i j) :
    optimalAt a b D best → optimalAt a b D' best := by
  intro h
  cases h with
  | inl h =>
      left
      refine ⟨h.1, ?_⟩
      intro i j hij
      cases hsub i j hij with
      | inl hd => exact h.2 i j hd
      | inr hz => exact hz
  | inr h =>
      right
      obtain ⟨i, j, hd, hlen, hpos, ha, hb2, hub, htie⟩ := h
      refine ⟨i, j, hwit i j hd (by omega), hlen, hpos, ha, hb2, ?_, ?_⟩
      · intro p q hpq
        cases hsub p q hpq with
        | inl hd' => exact hub p q hd'
        | inr hz => omega
      · intro p q hpq hlen'
        cases hsub p q hpq with
        | inl hd' => exact htie p q hd' hlen'
        | inr hz => omega

lemma lookupD_append (m₁ m₂ : List (Nat × Nat)) (j : Nat) :
    lookupD (m₁ ++ m₂) j =
      if j ∈ m₁.map Prod.fst then lookupD m₁ j else lookupD m₂ j := by
  induction m₁ with
  | nil => simp [lookupD]
  | cons p rest ih =>
      obtain ⟨k, v⟩ := p
      by_cases hkj : k = j
      · subst hkj
        simp [lookupD, ih]
      · by_cases hm : j ∈ rest.map Prod.fst
        · simp [lookupD, if_neg hkj, ih, hm, Ne.symm hkj]
        · simp [lookupD, if_neg hkj, ih, hm, Ne.symm hkj]

lemma mem_bIndices [DecidableEq α] {b : List α} {x : α} {j : Nat} :
    j ∈ bIndices b x ↔ j < b.length ∧ b.get? j = some x := by
  simp [bIndices, List.mem_filter, List.mem_range]

lemma bIndices_sorted [DecidableEq α] (b : List α) (x : α) :
    (bIndices b x).Pairwise (· < ·) :=
  (List.pairwise_lt_range b.length).sublist (List.filter_sublist _)

lemma b2jGet_small [DecidableEq α] {b : List α} (x : α) (hb : b.length < 200) :
    b2jGet b x = bIndices b x := by
  unfold b2jGet
  rw [if_neg]
  omega

/-- `endLen` at the previous row of the scan (`0` when no row was processed). -/
def endLenPrev [DecidableEq α] (a b : List α) : Nat → Nat → Nat
  | 0, _ => 0
  | m + 1, j => endLen a b m j

lemma flmInner_spec [DecidableEq α] (a b : List α) (m : Nat) (x : α)
    (hx : a.get? m = some x) :
    ∀ (todo done : List Nat),
      bIndices b x = done ++ todo →
      (∀ u ∈ done, ∀ v ∈ todo, u < v) →
      todo.Pairwise (· < ·) →
      ∀ (jold acc : List (Nat × Nat)) (best : MatchSpan),
      (∀ j, lookupD jold j = endLenPrev a b m j) →
      acc.map Prod.fst = done →
      (∀ j, lookupD acc j = if j ∈ done then endLen a b m j else 0) →
      optimalAt a b (fun p q => p < m ∨ (p = m ∧ q ∈ done)) best →
      ((flmInner m 0 b.length todo jold acc best).1.map Prod.fst = done ++ todo) ∧
      (∀ j, lookupD (flmInner m 0 b.length todo jold acc best).1 j =
        if j ∈ done ++ todo then endLen a b m j else 0) ∧
      optimalAt a b (fun p q => p < m ∨ (p = m ∧ q ∈ done ++ todo))
        (flmInner m 0 b.length todo jold acc best).2 := by
  intro todo
  induction todo with
  | nil =>
      intro done hsplit hlt htodo jold acc best hjold hkeys hacc hbest
      refine ⟨by simpa [flmInner] using hkeys, ?_, ?_⟩
      · intro j
        simpa [flmInner] using hacc j
      · simpa [flmInner] using hbest
  | cons j js ih =>
      intro done hsplit hlt htodo jold acc best hjold hkeys hacc hbest
      have hjmem : j ∈ bIndices b x := by
        rw [hsplit]
        exact List.mem_append_right _ (List.mem_cons_self _ _)
      have hjb := mem_bIndices.1 hjmem
      have hmatch : matchAt a b m j = true := by
        rw [matchAt_iff]
        refine ⟨by rw [hx]; rfl, by rw [hx, hjb.2]⟩
      have hEpos : 1 ≤ endLen a b m j := one_le_endLen_of_matchAt hmatch
      have hk : ((if j = 0 then 0 else lookupD jold (j - 1)) + 1) = endLen a b m j := by
        match m with
        | 0 =>
            have h1 : (if j = 0 then 0 else lookupD jold (j - 1)) = 0 := by
              cases j with
              | zero => simp
              | succ j' => simp [hjold, endLenPrev]
            rw [h1]
            cases j with
            | zero => simp [endLen, hmatch]
            | succ j' => simp [endLen, hmatch]
        | m' + 1 =>
            cases j with
            | zero => simp [endLen, hmatch]
            | succ j' =>
                have h1 : (if j' + 1 = 0 then 0 else lookupD jold (j' + 1 - 1)) =
                    endLen a b m' j' := by simp [hjold, endLenPrev]
                rw [h1]
                simp [endLen, hmatch]
      have hstep : flmInner m 0 b.length (j :: js) jold acc best =
          flmInner m 0 b.length js jold
            (acc ++ [(j, (if j = 0 then 0 else lookupD jold (j - 1)) + 1)])
            (if best.size < (if j = 0 then 0 else lookupD jold (j - 1)) + 1 then
              ⟨m + 1 - ((if j = 0 then 0 else lookupD jold (j - 1)) + 1),
               j + 1 - ((if j = 0 then 0 else lookupD jold (j - 1)) + 1),
               (if j = 0 then 0 else lookupD jold (j - 1)) + 1⟩
             else best) := by
        simp only [flmInner, if_neg (Nat.not_lt_zero j),
          if_neg (show ¬ b.length ≤ j by omega)]
      rw [hstep, hk]
      have hnotdone : j ∉ done := fun hmem =>
        lt_irrefl j (hlt j hmem j (List.mem_cons_self j js))
      have hlt' : ∀ u ∈ done ++ [j], ∀ v ∈ js, u < v := by
        intro u hu v hv
        rcases List.mem_append.1 hu with hu1 | hu2
        · exact hlt u hu1 v (List.mem_cons_of_mem _ hv)
        · have hu3 : u = j := by simpa using hu2
          subst hu3
          exact (List.pairwise_cons.1 htodo).1 v hv
      have htodo' : js.Pairwise (· < ·) := (List.pairwise_cons.1 htodo).2
      have hkeys' : (acc ++ [(j, endLen a b m j)]).map Prod.fst = done ++ [j] := by
        simp [hkeys]
      have hacc' : ∀ j', lookupD (acc ++ [(j, endLen a b m j)]) j' =
          if j' ∈ done ++ [j] then endLen a b m j' else 0 := by
        intro j'
        rw [lookupD_append, hkeys]
        by_cases hmem : j' ∈ done
        · rw [if_pos hmem, hacc j', if_pos hmem,
            if_pos (List.mem_append_left _ hmem)]
        · rw [if_neg hmem]
          by_cases hjj : j = j'
          · subst hjj
            simp [lookupD]
          · have hnm : j' ∉ done ++ [j] := by
              intro hcon
              rcases List.mem_append.1 hcon with h1 | h2
              · exact hmem h1
              · have h3 : j' = j := by simpa using h2
                exact hjj h3.symm
            rw [if_neg hnm]
            simp [lookupD, hjj]
      have hubD : ∀ p q, (p < m ∨ (p = m ∧ q ∈ done)) →
          endLen a b p q ≤ best.size := by
        rcases hbest with ⟨h0, hz⟩ | ⟨i0, j0, hd0, hlen0, hpos0, ha0, hb0, hub0, htie0⟩
        · intro p q h
          rw [hz p q h]
          omega
        · exact hub0
      have hbest' : optimalAt a b (fun p q => p < m ∨ (p = m ∧ q ∈ done ++ [j]))
          (if best.size < endLen a b m j then
            (⟨m + 1 - endLen a b m j, j + 1 - endLen a b m j, endLen a b m j⟩ : MatchSpan)
           else best) := by
        by_cases hup : best.size < endLen a b m j
        · rw [if_pos hup]
          have hsz : (⟨m + 1 - endLen a b m j, j + 1 - endLen a b m j,
              endLen a b m j⟩ : MatchSpan).size = endLen a b m j := rfl
          right
          refine ⟨m, j, Or.inr ⟨rfl, List.mem_append_right _ (List.mem_singleton.2 rfl)⟩,
            rfl, hEpos, rfl, rfl, ?_, ?_⟩
          · intro p q hpq
            rcases hpq with hp | ⟨hp, hq⟩
            · have := hubD p q (Or.inl hp)
              omega
            · rcases List.mem_append.1 hq with hq1 | hq2
              · have := hubD p q (Or.inr ⟨hp, hq1⟩)
                omega
              · have hq3 : q = j := by simpa using hq2
                subst hp; subst hq3
                exact le_refl _
          · intro p q hpq hlenpq
            rcases hpq with hp | ⟨hp, hq⟩
            · have := hubD p q (Or.inl hp)
              omega
            · rcases List.mem_append.1 hq with hq1 | hq2
              · have := hubD p q (Or.inr ⟨hp, hq1⟩)
                omega
              · have hq3 : q = j := by simpa using hq2
                exact Or.inr ⟨hp.symm, le_of_eq hq3.symm⟩
        · rw [if_neg hup]
          rcases hbest with ⟨h0, hz⟩ | ⟨i0, j0, hd0, hlen0, hpos0, ha0, hb0, hub0, htie0⟩
          · exfalso
            have : best.size = 0 := by rw [h0]
            omega
          · right
            refine ⟨i0, j0, ?_, hlen0, hpos0, ha0, hb0, ?_, ?_⟩
            · rcases hd0 with h1 | ⟨h1, h2⟩
              · exact Or.inl h1
              · exact Or.inr ⟨h1, List.mem_append_left _ h2⟩
            · intro p q hpq
              rcases hpq with hp | ⟨hp, hq⟩
              · exact hub0 p q (Or.inl hp)
              · rcases List.mem_append.1 hq with hq1 | hq2
                · exact hub0 p q (Or.inr ⟨hp, hq1⟩)
                · have hq3 : q = j := by simpa using hq2
                  subst hp; subst hq3
                  omega
            · intro p q hpq hlenpq
              rcases hpq with hp | ⟨hp, hq⟩
              · exact htie0 p q (Or.inl hp) hlenpq
              · rcases List.mem_append.1 hq with hq1 | hq2
                · exact htie0 p q (Or.inr ⟨hp, hq1⟩) hlenpq
                · have hq3 : q = j := by simpa using hq2
                  rcases hd0 with h1 | ⟨h1, h2⟩
                  · exact Or.inl (by omega)
                  · refine Or.inr ⟨by omega, ?_⟩
                    have : j0 < j := hlt j0 h2 j (List.mem_cons_self j js)
                    omega
      have hres := ih (done ++ [j]) (by rw [hsplit]; simp) hlt' htodo' jold
        (acc ++ [(j, endLen a b m j)])
        (if best.size < endLen a b m j then
          (⟨m + 1 - endLen a b m j, j + 1 - endLen a b m j, endLen a b m j⟩ : MatchSpan)
         else best) hjold hkeys' hacc' hbest'
      rw [show (done ++ [j]) ++ js = done ++ j :: js by simp] at hres
      exact hres

lemma endLen_eq_zero_of_not_bIndices [DecidableEq α] {a b : List α} {m j : Nat}
    {x : α} (hx : a.get? m = some x) (hmem : j ∉ bIndices b x) :
    endLen a b m j = 0 := by
  apply endLen_eq_zero
  by_contra hc
  have hmatch : matchAt a b m j = true := by
    cases h : matchAt a b m j
    · exact absurd h hc
    · rfl
  have h2 := (matchAt_iff.1 hmatch).2
  rw [hx] at h2
  have hjlt : j < b.length := by
    rcases List.get?_eq_some.1 h2.symm with ⟨h, _⟩
    exact h
  exact hmem (mem_bIndices.2 ⟨hjlt, h2.symm⟩)

lemma flmOuter_spec [DecidableEq α] (a b : List α) (hb : b.length < 200) :
    ∀ (rest : List α) (m : Nat), rest = a.drop m →
      ∀ (j2len : List (Nat × Nat)) (best : MatchSpan),
      (∀ j, lookupD j2len j = endLenPrev a b m j) →
      optimalAt a b (fun p q => p < m) best →
      optimalAt a b (fun p q => p < a.length)
        (flmOuter (b2jGet b) 0 b.length rest m j2len best) := by
  intro rest
  induction rest with
  | nil =>
      intro m hrest j2len best hj hbest
      have hm : a.length ≤ m := List.drop_eq_nil_iff_le.1 hrest.symm
      simp only [flmOuter]
      refine optimalAt_extend ?_ ?_ hbest
      · intro i j h
        exact Or.inl (by omega)
      · intro i j hd hpos
        exact (matchAt_lt_length (matchAt_of_endLen_pos hpos)).1
  | cons x rest' ih =>
      intro m hrest j2len best hj hbest
      have hx : a.get? m = some x := by
        have h0 : (a.drop m).get? 0 = a.get? (m + 0) := List.get?_drop a m 0
        rw [← hrest] at h0
        simpa using h0.symm
      have hrest' : rest' = a.drop (m + 1) := by
        have ht : (a.drop m).tail = a.drop (m + 1) := List.tail_drop a m
        rw [← hrest] at ht
        simpa using ht
      have hbest0 : optimalAt a b (fun p q => p < m ∨ (p = m ∧ q ∈ ([] : List Nat)))
          best := by
        refine optimalAt_extend ?_ ?_ hbest
        · intro i j h
          rcases h with h1 | ⟨_, h2⟩
          · exact Or.inl h1
          · exact absurd h2 (List.not_mem_nil j)
        · intro i j hd _
          exact Or.inl hd
      have hinner := flmInner_spec a b m x hx (bIndices b x) []
        (by simp) (by simp) (bIndices_sorted b x) j2len [] best hj (by simp)
        (by intro j; simp [lookupD]) hbest0
      simp only [List.nil_append] at hinner
      have hj' : ∀ j, lookupD (flmInner m 0 b.length (bIndices b x) j2len [] best).1 j =
          endLen a b m j := by
        intro j
        rw [hinner.2.1 j]
        by_cases hmem : j ∈ bIndices b x
        · rw [if_pos hmem]
        · rw [if_neg hmem, endLen_eq_zero_of_not_bIndices hx hmem]
      have hbest' : optimalAt a b (fun p q => p < m + 1)
          (flmInner m 0 b.length (bIndices b x) j2len [] best).2 := by
        refine optimalAt_extend ?_ ?_ hinner.2.2
        · intro i j h
          by_cases him : i < m
          · exact Or.inl (Or.inl him)
          · have hi : i = m := by omega
            by_cases hmem : j ∈ bIndices b x
            · exact Or.inl (Or.inr ⟨hi, hmem⟩)
            · subst hi
              exact Or.inr (endLen_eq_zero_of_not_bIndices hx hmem)
        · intro i j hd _
          rcases hd with h1 | ⟨h1, _⟩
          · omega
          · omega
      have hstep : flmOuter (b2jGet b) 0 b.length (x :: rest') m j2len best =
          flmOuter (b2jGet b) 0 b.length rest' (m + 1)
            (flmInner m 0 b.length (bIndices b x) j2len [] best).1
            (flmInner m 0 b.length (bIndices b x) j2len [] best).2 := by
        simp only [flmOuter, b2jGet_small x hb]
      rw [hstep]
      exact ih (m + 1) hrest' _ _ (fun j => hj' j) hbest'

/-- Full-range `find_longest_match` correctness, below the autojunk threshold:
the returned span is a common block, of maximal length, and leftmost in `a`
among the maximal blocks. -/
lemma findLongestMatchFull_spec [DecidableEq α] (a b : List α) (hb : b.length < 200) :
    isBlock a b (findLongestMatchFull a b).a (findLongestMatchFull a b).b
      (findLongestMatchFull a b).size ∧
    (∀ i j k, isBlock a b i j k → k ≤ (findLongestMatchFull a b).size) ∧
    (∀ i j k, isBlock a b i j k → k = (findLongestMatchFull a b).size →
      (findLongestMatchFull a b).a ≤ i) := by
  have hSlice : pySlice a 0 a.length = a := by simp [pySlice]
  have hcore : optimalAt a b (fun p q => p < a.length)
      (flmOuter (b2jGet b) 0 b.length a 0 [] ⟨0, 0, 0⟩) := by
    refine flmOuter_spec a b hb a 0 (by simp) [] ⟨0, 0, 0⟩ ?_ ?_
    · intro j
      simp [lookupD, endLenPrev]
    · left
      refine ⟨rfl, ?_⟩
      intro i j h
      exact absurd h (Nat.not_lt_zero i)
  generalize hBdef : flmOuter (b2jGet b) 0 b.length a 0 [] (⟨0, 0, 0⟩ : MatchSpan) = B
    at hcore
  have hall : isBlock a b B.a B.b B.size ∧
      (∀ i j k, isBlock a b i j k → k ≤ B.size) ∧
      (∀ i j k, isBlock a b i j k → k = B.size → B.a ≤ i) := by
    rcases hcore with ⟨h0, hz⟩ | ⟨i0, j0, hd0, hlen0, hpos0, ha0, hb0', hub0, htie0⟩
    · refine ⟨?_, ?_, ?_⟩
      · rw [h0]
        exact ⟨Nat.zero_le _, Nat.zero_le _, fun t ht => absurd ht (Nat.not_lt_zero t)⟩
      · intro i j k hblk
        cases k with
        | zero => exact Nat.zero_le _
        | succ k' =>
            exfalso
            have h1 := endLen_of_isBlock a b (k' + 1) i j hblk (by omega)
            have h2 : i + (k' + 1) - 1 < a.length := by
              have := hblk.1
              omega
            rw [hz _ _ h2] at h1
            omega
      · intro i j k hblk hk
        rw [h0]
        exact Nat.zero_le _
    · refine ⟨?_, ?_, ?_⟩
      · have hblk := isBlock_of_endLen a b B.size i0 j0 hpos0 (le_of_eq hlen0.symm)
        rw [ha0, hb0']
        exact hblk
      · intro i j k hblk
        cases k with
        | zero => exact Nat.zero_le _
        | succ k' =>
            have h1 := endLen_of_isBlock a b (k' + 1) i j hblk (by omega)
            have h2 : i + (k' + 1) - 1 < a.length := by
              have := hblk.1
              omega
            have h3 := hub0 (i + (k' + 1) - 1) (j + (k' + 1) - 1) h2
            omega
      · intro i j k hblk hk
        have hk1 : 1 ≤ k := by omega
        have h1 := endLen_of_isBlock a b k i j hblk hk1
        have h2 : i + k - 1 < a.length := by
          have := hblk.1
          omega
        have h3 := hub0 (i + k - 1) (j + k - 1) h2
        have h4 : endLen a b (i + k - 1) (j + k - 1) = B.size := by omega
        have h5 := htie0 (i + k - 1) (j + k - 1) h2 h4
        have h6 := endLen_le_left a b i0 j0
        rcases h5 with h5 | ⟨h5, _⟩ <;> omega
  obtain ⟨hblock, hmax, hleft⟩ := hall
  have hcond1 : ¬(0 < B.a ∧ 0 < B.b ∧ matchAt a b (B.a - 1) (B.b - 1) = true) := by
    rintro ⟨hc1, hc2, hc3⟩
    have hget := (matchAt_iff.1 hc3).2
    have hnew : isBlock a b (B.a - 1) (B.b - 1) (B.size + 1) := by
      refine ⟨by have := hblock.1; omega, by have := hblock.2.1; omega, ?_⟩
      intro t ht
      cases t with
      | zero => simpa using hget
      | succ t' =>
          have e1 : B.a - 1 + (t' + 1) = B.a + t' := by omega
          have e2 : B.b - 1 + (t' + 1) = B.b + t' := by omega
          rw [e1, e2]
          exact hblock.2.2 t' (by omega)
    have := hmax _ _ _ hnew
    omega
  have hstop : ∀ fuel, flmExtendBack a b 0 0 fuel B.a B.b B.size = (B.a, B.b, B.size) := by
    intro fuel
    cases fuel with
    | zero => rfl
    | succ f =>
        show flmExtendBack a b 0 0 (f + 1) B.a B.b B.size = (B.a, B.b, B.size)
        rw [flmExtendBack, if_neg hcond1]
  have hcond2 : ¬(B.a + B.size < a.length ∧ B.b + B.size < b.length ∧
      matchAt a b (B.a + B.size) (B.b + B.size) = true) := by
    rintro ⟨hc1, hc2, hc3⟩
    have hnew : isBlock a b B.a B.b (B.size + 1) := by
      refine ⟨by omega, by omega, ?_⟩
      intro t ht
      by_cases ht' : t < B.size
      · exact hblock.2.2 t ht'
      · have ht2 : t = B.size := by omega
        rw [ht2]
        exact (matchAt_iff.1 hc3).2
    have := hmax _ _ _ hnew
    omega
  have hfwd : ∀ fuel, flmExtendFwd a b a.length b.length B.a B.b fuel B.size = B.size := by
    intro fuel
    cases fuel with
    | zero => rfl
    | succ f =>
        show flmExtendFwd a b a.length b.length B.a B.b (f + 1) B.size = B.size
        rw [flmExtendFwd, if_neg hcond2]
  have hfull : findLongestMatchFull a b = B := by
    simp only [findLongestMatchFull, findLongestMatchRanged, hSlice, hBdef, hstop, hfwd]
  rw [hfull]
  exact ⟨hblock, hmax, hleft⟩

lemma splitlinesAux_ne_nil : ∀ (s acc : List Char), acc ≠ [] → splitlinesAux s acc ≠ [] := by
  intro s acc
  induction s, acc using splitlinesAux.induct with
  | case1 acc hacc =>
      intro h
      exact absurd (by simpa using hacc) h
  | case2 acc hacc =>
      intro h
      rw [splitlinesAux.eq_1, if_neg (by simpa using hacc)]
      simp
  | case3 rest acc ih =>
      intro h
      rw [splitlinesAux.eq_2]
      simp
  | case4 c rest acc hside hbreak ih =>
      intro h
      rw [splitlinesAux.eq_3 acc c rest hside, if_pos hbreak]
      simp
  | case5 c rest acc hside hbreak ih =>
      intro h
      rw [splitlinesAux.eq_3 acc c rest hside, if_neg hbreak]
      exact ih (List.cons_ne_nil c acc)

/-- A non-empty Python string splits into at least one line. -/
lemma pySplitlines_ne_nil {s : PyStr} (h : s ≠ []) : pySplitlines s ≠ [] := by
  unfold pySplitlines
  match s, h with
  | c :: rest, _ =>
      rcases rest with _ | ⟨c2, rest2⟩
      · by_cases hcr : ∀ (rest_1 : List Char), c = '\x0d' → ([] : List Char) = '\n' :: rest_1 → False
        · rw [splitlinesAux.eq_3 [] c [] hcr]
          by_cases hb : isLineBreakChar c = true
          · rw [if_pos hb]; simp
          · rw [if_neg hb]
            exact splitlinesAux_ne_nil [] [c] (List.cons_ne_nil c [])
        · exact absurd (fun r h1 h2 => List.noConfusion h2) hcr
      · by_cases hcr : c = '\x0d' ∧ c2 = '\n'
        · obtain ⟨h1, h2⟩ := hcr
          subst h1; subst h2
          rw [splitlinesAux.eq_2]
          simp
        · have hside : ∀ (rest_1 : List Char), c = '\x0d' → c2 :: rest2 = '\n' :: rest_1 → False := by
            intro r h1 h2
            exact hcr ⟨h1, (List.cons.injEq _ _ _ _ ▸ h2).1⟩
          rw [splitlinesAux.eq_3 [] c (c2 :: rest2) hside]
          by_cases hb : isLineBreakChar c = true
          · rw [if_pos hb]; simp
          · rw [if_neg hb]
            exact splitlinesAux_ne_nil (c2 :: rest2) [c] (List.cons_ne_nil c [])

lemma mem_occPositions {c s : PyStr} {i : Nat} :
    i ∈ occPositions c s ↔ OccursAt c s i := by
  simp only [occPositions, List.mem_filter, List.mem_range, decide_eq_true_eq]
  constructor
  · exact fun h => h.2
  · intro h
    refine ⟨?_, h⟩
    have := h.1
    omega

lemma occPositions_sorted (c s : PyStr) : (occPositions c s).Pairwise (· < ·) :=
  (List.pairwise_lt_range _).sublist (List.filter_sublist _)

lemma pyContains_iff {c s : PyStr} : pyContains c s = true ↔ ∃ i, OccursAt c s i := by
  constructor
  · intro h
    cases hocc : occPositions c s with
    | nil =>
        rw [pyContains, hocc] at h
        simp at h
    | cons a t =>
        exact ⟨a, mem_occPositions.1 (hocc ▸ List.mem_cons_self a t)⟩
  · rintro ⟨i, hi⟩
    have hm : i ∈ occPositions c s := mem_occPositions.2 hi
    rw [pyContains]
    cases hocc : occPositions c s with
    | nil => rw [hocc] at hm; simp at hm
    | cons a t => simp [hocc]

lemma pyContains_nil (c : PyStr) : pyContains c [] = true := by
  rw [pyContains_iff]
  exact ⟨0, by simp [OccursAt]⟩

lemma occPositions_head_least {c s : PyStr} {i : Nat}
    (h : (occPositions c s).head? = some i) :
    OccursAt c s i ∧ ∀ i', OccursAt c s i' → i ≤ i' := by
  cases hocc : occPositions c s with
  | nil => rw [hocc] at h; simp at h
  | cons a t =>
      rw [hocc] at h
      have ha : a = i := by simpa using h
      subst ha
      have hsorted := occPositions_sorted c s
      rw [hocc] at hsorted
      have hlt := (List.pairwise_cons.1 hsorted).1
      constructor
      · exact mem_occPositions.1 (hocc ▸ List.mem_cons_self a t)
      · intro i' hi'
        have hm : i' ∈ occPositions c s := mem_occPositions.2 hi'
        rw [hocc] at hm
        rcases List.mem_cons.1 hm with h1 | h1
        · omega
        · exact le_of_lt (hlt i' h1)

lemma occPositions_singleton {c s : PyStr} {i : Nat} (h : occPositions c s = [i]) :
    OccursAt c s i ∧ ∀ i', OccursAt c s i' → i' = i := by
  constructor
  · exact mem_occPositions.1 (by rw [h]; exact List.mem_cons_self i [])
  · intro i' hi'
    have hm : i' ∈ occPositions c s := mem_occPositions.2 hi'
    rw [h] at hm
    simpa using hm

lemma occursAt_drop {c s : PyStr} (d j : Nat) (hd : d ≤ c.length) :
    OccursAt (c.drop d) s j ↔ OccursAt c s (d + j) := by
  unfold OccursAt
  have h1 : (c.drop d).drop j = c.drop (d + j) := by
    rw [List.drop_drop, Nat.add_comm]
  rw [h1, List.length_drop]
  constructor
  · rintro ⟨ha, hx⟩
    exact ⟨by omega, hx⟩
  · rintro ⟨ha, hx⟩
    exact ⟨by omega, hx⟩

lemma pyCountAux_of_empty {s c : PyStr} (h : occPositions c s = []) (fuel : Nat) :
    pyCountAux s fuel c = 0 := by
  cases fuel with
  | zero => rfl
  | succ f => simp [pyCountAux, h]

lemma occPositions_empty_iff {c s : PyStr} :
    occPositions c s = [] ↔ ∀ i, ¬OccursAt c s i := by
  constructor
  · intro h i hi
    have hm : i ∈ occPositions c s := mem_occPositions.2 hi
    rw [h] at hm
    simp at hm
  · intro h
    cases hocc : occPositions c s with
    | nil => rfl
    | cons a t =>
        exact absurd (mem_occPositions.1 (hocc ▸ List.mem_cons_self a t)) (h a)

lemma pyCount_of_singleton {c s : PyStr} {i : Nat} (h : occPositions c s = [i]) :
    pyCount c s = 1 := by
  by_cases hs : s.isEmpty
  · have hs' : s = [] := by simpa using hs
    subst hs'
    have hall : occPositions c [] = List.range (c.length + 1) := by
      unfold occPositions
      rw [List.filter_eq_self.2]
      intro a ha
      simp only [decide_eq_true_eq, OccursAt]
      have := List.mem_range.1 ha
      exact ⟨by simpa using Nat.lt_succ_iff.1 this, by simp⟩
    rw [hall] at h
    have hlen : c.length + 1 = 1 := by
      have := congrArg List.length h
      simpa using this
    have hcnil : c = [] := List.length_eq_zero.1 (by omega)
    subst hcnil
    rfl
  · obtain ⟨hocc, huniq⟩ := occPositions_singleton h
    have hslen : 1 ≤ s.length := by
      cases s with
      | nil => simp at hs
      | cons _ _ => simp
    have hdle : i + s.length ≤ c.length := hocc.1
    have hhead : (occPositions c s).head? = some i := by rw [h]; rfl
    have hnone : occPositions (c.drop (i + s.length)) s = [] := by
      rw [occPositions_empty_iff]
      intro j hj
      have hj' := (occursAt_drop (i + s.length) j hdle).1 hj
      have := huniq _ hj'
      omega
    have hc1 : 1 ≤ c.length := by omega
    unfold pyCount
    rw [if_neg (by simpa using hs)]
    cases hc : c.length with
    | zero => omega
    | succ n =>
        show pyCountAux s (n + 1 + 1) c = 1
        rw [show pyCountAux s (n + 1 + 1) c =
          match (occPositions c s).head? with
          | none => 0
          | some i => 1 + pyCountAux s (n + 1) (c.drop (i + s.length)) from rfl]
        rw [hhead]
        show 1 + pyCountAux s (n + 1) (c.drop (i + s.length)) = 1
        rw [pyCountAux_of_empty hnone]

lemma pyContains_of_count_pos {c s : PyStr} (h : 1 ≤ pyCount c s) :
    pyContains c s = true := by
  by_cases hs : s.isEmpty
  · have hs' : s = [] := by simpa using hs
    subst hs'
    exact pyContains_nil c
  · unfold pyCount at h
    rw [if_neg (by simpa using hs)] at h
    cases hocc : occPositions c s with
    | nil =>
        rw [pyCountAux_of_empty hocc] at h
        omega
    | cons a t =>
        rw [pyContains, hocc]
        simp

lemma applyEdit_of_contains {c old : PyStr} (h : pyContains c old = true) (t : PyStr) :
    applyEdit c old t =
      if 1 < pyCount c old then .ambiguous (pyCount c old)
      else .success (pyReplace1 c old t) := by
  unfold applyEdit
  rw [h]
  rfl

lemma applyEdit_of_not_contains {c old : PyStr} (h : pyContains c old = false) (t : PyStr) :
    applyEdit c old t = .noMatch (pySplitlines old).length (pySplitlines c).length
      (findBestMatch c old 5) := by
  unfold applyEdit
  rw [h]
  rfl

/-- C1: if `old_text` occurs exactly once in the file content (at position
`i`), the edit succeeds, the new content is the old content with that single
occurrence replaced by `new_text`, and the new length is
`len(C) + len(T) - len(S)`. -/
theorem applyEdit_unique_success (C S T : PyStr) (i : Nat)
    (h : occPositions C S = [i]) :
    applyEdit C S T = .success (C.take i ++ T ++ C.drop (i + S.length)) ∧
    C = C.take i ++ S ++ C.drop (i + S.length) ∧
    (C.take i ++ T ++ C.drop (i + S.length)).length =
      C.length + T.length - S.length := by
  obtain ⟨hocc, huniq⟩ := occPositions_singleton h
  have hcont : pyContains C S = true := pyContains_iff.2 ⟨i, hocc⟩
  have hcount : pyCount C S = 1 := pyCount_of_singleton h
  have hhead : (occPositions C S).head? = some i := by rw [h]; rfl
  have hdle : i + S.length ≤ C.length := hocc.1
  refine ⟨?_, ?_, ?_⟩
  · rw [applyEdit_of_contains hcont, hcount, if_neg (by omega)]
    unfold pyReplace1
    rw [hhead]
  · conv_lhs => rw [← List.take_append_drop i C,
      ← List.take_append_drop S.length (C.drop i)]
    rw [hocc.2, List.drop_drop, List.append_assoc]
  · rw [List.length_append, List.length_append, List.length_take, List.length_drop]
    omega

theorem applyEdit_unique_success_witness :
    occPositions ("ab").data ("b").data = [1] ∧
    (applyEdit ("ab").data ("b").data ("cd").data =
      .success ((("ab").data).take 1 ++ ("cd").data ++
        (("ab").data).drop (1 + ("b").data.length)) ∧
     ("ab").data = (("ab").data).take 1 ++ ("b").data ++
        (("ab").data).drop (1 + ("b").data.length) ∧
     ((("ab").data).take 1 ++ ("cd").data ++
        (("ab").data).drop (1 + ("b").data.length)).length =
       ("ab").data.length + ("cd").data.length - ("b").data.length) :=
  ⟨by decide, applyEdit_unique_success (("ab").data) (("b").data) (("cd").data) 1
    (by decide)⟩

/-- C2 (amended): when the non-overlapping occurrence count of `old_text` in
the content (Python `str.count`) is at least 2, the edit returns
AmbiguousMatch carrying exactly that count, and no write is performed (the
outcome is never `success`). -/
theorem applyEdit_ambiguous_count (C S T : PyStr) (h : 2 ≤ pyCount C S) :
    applyEdit C S T = .ambiguous (pyCount C S) ∧
    ∀ X, applyEdit C S T ≠ .success X := by
  have hcont := pyContains_of_count_pos (c := C) (s := S) (by omega)
  have h1 : applyEdit C S T = .ambiguous (pyCount C S) := by
    rw [applyEdit_of_contains hcont, if_pos (by omega)]
  refine ⟨h1, ?_⟩
  intro X hX
  rw [h1] at hX
  exact EditOutcome.noConfusion hX

theorem applyEdit_ambiguous_count_witness :
    2 ≤ pyCount ("aa").data ("a").data ∧
    (applyEdit ("aa").data ("a").data ("b").data =
      .ambiguous (pyCount ("aa").data ("a").data) ∧
     ∀ X, applyEdit ("aa").data ("a").data ("b").data ≠ .success X) :=
  ⟨by decide, applyEdit_ambiguous_count (("aa").data) (("a").data) (("b").data)
    (by decide)⟩

/-- C2 counterexample: in `C = "aaa"`, `S = "aa"` occurs at two positions (0
and 1) as a raw substring, yet the edit succeeds (Python's non-overlapping
`count` is 1) and modifies the content, instead of returning AmbiguousMatch
with count 2. -/
theorem applyEdit_ambiguous_counterexample :
    (occPositions ("aaa").data ("aa").data).length = 2 ∧
    applyEdit ("aaa").data ("aa").data ("b").data = .success (("ba").data) ∧
    ∀ k, applyEdit ("aaa").data ("aa").data ("b").data ≠ .ambiguous k := by
  refine ⟨by decide, by decide, ?_⟩
  intro k hk
  have h1 : applyEdit ("aaa").data ("aa").data ("b").data =
      .success (("ba").data) := by decide
  rw [h1] at hk
  exact EditOutcome.noConfusion hk

/-- C10: with an empty `old_text` the edit never reaches the NoMatch path:
for non-empty content it returns AmbiguousMatch with count `len(C) + 1`
(Python counts `len + 1` occurrences of the empty string), and for empty
content it succeeds and the new content is exactly `new_text`. -/
theorem applyEdit_empty_old (C T : PyStr) :
    applyEdit C [] T =
      if C.length = 0 then .success T else .ambiguous (C.length + 1) := by
  have hcont := pyContains_nil C
  have hcnt : pyCount C [] = C.length + 1 := rfl
  rw [applyEdit_of_contains hcont, hcnt]
  by_cases hC : C.length = 0
  · have hnil : C = [] := List.length_eq_zero.1 hC
    subst hnil
    rw [if_neg (by omega), if_pos hC]
    have hrep : pyReplace1 [] [] T = T := by
      unfold pyReplace1
      rw [show (occPositions ([] : PyStr) ([] : PyStr)).head? = some 0 by decide]
      simp
    rw [hrep]
  · rw [if_pos (by omega), if_neg hC]

/-- C3 (amended): for every pair of line sequences in which the old-text side
has fewer than 200 lines (below the autojunk threshold of the underlying
`SequenceMatcher`), `find_longest_match` returns a span that is a run of
identical consecutive lines common to both sequences, of maximal length, and
with the lowest start index in the reference (file content) sequence among
the runs of maximal length. -/
theorem sequenceMatcher_longest_leftmost (contentLines oldLines : List PyStr)
    (hb : oldLines.length < 200) :
    isBlock contentLines oldLines (findLongestMatchFull contentLines oldLines).a
      (findLongestMatchFull contentLines oldLines).b
      (findLongestMatchFull contentLines oldLines).size ∧
    (∀ i j k, isBlock contentLines oldLines i j k →
      k ≤ (findLongestMatchFull contentLines oldLines).size) ∧
    (∀ i j k, isBlock contentLines oldLines i j k →
      k = (findLongestMatchFull contentLines oldLines).size →
      (findLongestMatchFull contentLines oldLines).a ≤ i) :=
  findLongestMatchFull_spec contentLines oldLines hb

def c3wA : List PyStr := [("p").data, ("q").data]

def c3wB : List PyStr := [("q").data]

theorem sequenceMatcher_longest_leftmost_witness :
    c3wB.length < 200 ∧
    (isBlock c3wA c3wB (findLongestMatchFull c3wA c3wB).a
      (findLongestMatchFull c3wA c3wB).b (findLongestMatchFull c3wA c3wB).size ∧
    (∀ i j k, isBlock c3wA c3wB i j k → k ≤ (findLongestMatchFull c3wA c3wB).size) ∧
    (∀ i j k, isBlock c3wA c3wB i j k → k = (findLongestMatchFull c3wA c3wB).size →
      (findLongestMatchFull c3wA c3wB).a ≤ i)) :=
  ⟨by decide, sequenceMatcher_longest_leftmost c3wA c3wB (by decide)⟩

def c3xA : List PyStr := [("z").data, ("x").data, ("x").data]

def c3xB : List PyStr := List.replicate 199 (("x").data) ++ [("z").data]

set_option maxRecDepth 8000 in
set_option maxHeartbeats 2000000 in
/-- C3 counterexample: with 200 old-text lines the autojunk heuristic of
`SequenceMatcher` marks the popular line `"x"` as junk, and the matcher
returns the single-line span `(0, 199, 1)` even though the two sequences
share the two-line run `["x", "x"]` (at reference index 1, old index 0).
The returned span is therefore not a longest common run. -/
theorem sequenceMatcher_longest_counterexample :
    isBlock c3xA c3xB 1 0 2 ∧
    findLongestMatchFull c3xA c3xB = ⟨0, 199, 1⟩ ∧
    ¬(2 ≤ (findLongestMatchFull c3xA c3xB).size) := by
  refine ⟨by decide, ?_, ?_⟩
  · decide
  · rw [show findLongestMatchFull c3xA c3xB = ⟨0, 199, 1⟩ by decide]
    decide

/-- C4: on the NoMatch path, when old_text or the file content splits into an
empty line sequence, or the best match span is empty, the diagnostic shows
the first `max_context` (5) lines of the file content instead of a diff, each
prefixed with its 1-based line number (`numberedPreview`); an empty file
content has no lines to show and the report is empty. -/
theorem noMatch_preview_report (C S : PyStr) (hne : pyContains C S = false)
    (hcase : pySplitlines S = [] ∨ pySplitlines C = [] ∨
      (findLongestMatchFull (pySplitlines C) (pySplitlines S)).size = 0) :
    findBestMatch C S 5 =
      if pySplitlines C = [] then [] else
        noMatchHeader ++ numberedPreview ((pySplitlines C).take 5) := by
  have hS : S ≠ [] := by
    intro hnil
    subst hnil
    rw [pyContains_nil C] at hne
    exact Bool.noConfusion hne
  have hol : pySplitlines S ≠ [] := pySplitlines_ne_nil hS
  have holE : (pySplitlines S).isEmpty = false := by simpa using hol
  by_cases hcl : pySplitlines C = []
  · rw [if_pos hcl]
    simp [findBestMatch, hcl]
  · rw [if_neg hcl]
    have hclE : (pySplitlines C).isEmpty = false := by simpa using hcl
    have hsz : (findLongestMatchFull (pySplitlines C) (pySplitlines S)).size = 0 := by
      rcases hcase with h1 | h1 | h1
      · exact absurd h1 hol
      · exact absurd h1 hcl
      · exact h1
    simp only [findBestMatch, holE, hclE, Bool.or_self, Bool.false_eq_true, if_false]
    rw [if_pos hsz]

theorem noMatch_preview_report_witness :
    pyContains ("foo\n").data ("bar\n").data = false ∧
    (findLongestMatchFull (pySplitlines ("foo\n").data)
      (pySplitlines ("bar\n").data)).size = 0 ∧
    findBestMatch ("foo\n").data ("bar\n").data 5 =
      (if pySplitlines ("foo\n").data = [] then [] else
        noMatchHeader ++ numberedPreview ((pySplitlines ("foo\n").data).take 5)) :=
  ⟨by decide, by decide,
    noMatch_preview_report (("foo\n").data) (("bar\n").data) (by decide)
      (Or.inr (Or.inr (by decide)))⟩

/-- C6: on the NoMatch diagnostic path with a non-empty match span, the diff
is rendered over the context window from `max_context` (5) lines before the
match start to 5 lines after the match end, clipped to the file's line
boundaries, and the diff body placed in the report is truncated to at most
`max_lines` (30) lines. -/
theorem noMatch_diff_window (C S : PyStr)
    (h1 : pySplitlines S ≠ []) (h2 : pySplitlines C ≠ [])
    (h3 : (findLongestMatchFull (pySplitlines C) (pySplitlines S)).size ≠ 0) :
    ∃ diffLines hintsList,
      diffLines = unifiedDiff
        (pySlice (pySplitlines C)
          ((findLongestMatchFull (pySplitlines C) (pySplitlines S)).a - 5)
          (min (pySplitlines C).length
            ((findLongestMatchFull (pySplitlines C) (pySplitlines S)).a +
             (findLongestMatchFull (pySplitlines C) (pySplitlines S)).size + 5)))
        (pySplitlines S) (("file (closest region)").data)
        (("old_text (your input)").data) ∧
      (diffLines.take 30).length ≤ 30 ∧
      hintsList = trailingWsHint (pySplitlines C) (pySplitlines S)
        (findLongestMatchFull (pySplitlines C) (pySplitlines S)).a ++ crlfHints C S ∧
      findBestMatch C S 5 = joinSep ['\n']
        ([headerLine (findLongestMatchFull (pySplitlines C) (pySplitlines S)).a] ++
         (if (joinSep ['\n'] (diffLines.take 30)).isEmpty then []
          else [joinSep ['\n'] (diffLines.take 30)]) ++
         (if hintsList.isEmpty then []
          else [("Hints: ").data ++ joinSep (("; ").data) hintsList])) := by
  have holE : (pySplitlines S).isEmpty = false := by simpa using h1
  have hclE : (pySplitlines C).isEmpty = false := by simpa using h2
  refine ⟨_, _, rfl, List.length_take_le _ _, rfl, ?_⟩
  simp only [findBestMatch, holE, hclE, Bool.or_self, Bool.false_eq_true, if_false]
  rw [if_neg h3]

theorem noMatch_diff_window_witness :
    pySplitlines ("b\nX\n").data ≠ [] ∧ pySplitlines ("a\nb\nc\n").data ≠ [] ∧
    (findLongestMatchFull (pySplitlines ("a\nb\nc\n").data)
      (pySplitlines ("b\nX\n").data)).size ≠ 0 ∧
    (∃ diffLines hintsList,
      diffLines = unifiedDiff
        (pySlice (pySplitlines ("a\nb\nc\n").data)
          ((findLongestMatchFull (pySplitlines ("a\nb\nc\n").data)
            (pySplitlines ("b\nX\n").data)).a - 5)
          (min (pySplitlines ("a\nb\nc\n").data).length
            ((findLongestMatchFull (pySplitlines ("a\nb\nc\n").data)
              (pySplitlines ("b\nX\n").data)).a +
             (findLongestMatchFull (pySplitlines ("a\nb\nc\n").data)
              (pySplitlines ("b\nX\n").data)).size + 5)))
        (pySplitlines ("b\nX\n").data) (("file (closest region)").data)
        (("old_text (your input)").data) ∧
      (diffLines.take 30).length ≤ 30 ∧
      hintsList = trailingWsHint (pySplitlines ("a\nb\nc\n").data)
        (pySplitlines ("b\nX\n").data)
        (findLongestMatchFull (pySplitlines ("a\nb\nc\n").data)
          (pySplitlines ("b\nX\n").data)).a ++ crlfHints ("a\nb\nc\n").data ("b\nX\n").data ∧
      findBestMatch ("a\nb\nc\n").data ("b\nX\n").data 5 = joinSep ['\n']
        ([headerLine (findLongestMatchFull (pySplitlines ("a\nb\nc\n").data)
          (pySplitlines ("b\nX\n").data)).a] ++
         (if (joinSep ['\n'] (diffLines.take 30)).isEmpty then []
          else [joinSep ['\n'] (diffLines.take 30)]) ++
         (if hintsList.isEmpty then []
          else [("Hints: ").data ++ joinSep (("; ").data) hintsList]))) :=
  ⟨by decide, by decide, by decide,
    noMatch_diff_window (("a\nb\nc\n").data) (("b\nX\n").data)
      (by decide) (by decide) (by decide)⟩

lemma twFirstIdx_none (pairs : List (PyStr × PyStr))
    (h : ∀ t x y, pairs.get? t = some (x, y) → ¬(pyRstrip x = pyRstrip y ∧ x ≠ y)) :
    twFirstIdx pairs = none := by
  induction pairs with
  | nil => rfl
  | cons p rest ih =>
      obtain ⟨x, y⟩ := p
      have h0 := h 0 x y rfl
      have hrec : twFirstIdx rest = none :=
        ih (fun t x' y' ht => h (t + 1) x' y' (by simpa using ht))
      unfold twFirstIdx
      rw [if_neg h0, hrec]
      rfl

lemma twFirstIdx_least : ∀ (pairs : List (PyStr × PyStr)) (t₀ : Nat) (x y : PyStr),
    pairs.get? t₀ = some (x, y) → pyRstrip x = pyRstrip y → x ≠ y →
    (∀ t x' y', t < t₀ → pairs.get? t = some (x', y') →
      ¬(pyRstrip x' = pyRstrip y' ∧ x' ≠ y')) →
    twFirstIdx pairs = some t₀ := by
  intro pairs
  induction pairs with
  | nil => intro t₀ x y hget; simp at hget
  | cons p rest ih =>
      intro t₀ x y hget hr hne hmin
      obtain ⟨x1, y1⟩ := p
      cases t₀ with
      | zero =>
          have hxy : x1 = x ∧ y1 = y := by
            have := hget
            simp at this
            exact ⟨this.1, this.2⟩
          obtain ⟨hx1, hy1⟩ := hxy
          subst hx1
          subst hy1
          unfold twFirstIdx
          rw [if_pos ⟨hr, hne⟩]
      | succ t =>
          have h0 := hmin 0 x1 y1 (by omega) rfl
          unfold twFirstIdx
          rw [if_neg h0, ih t x y (by simpa using hget) hr hne ?_]
          · rfl
          · intro t' x' y' ht' hget'
            exact hmin (t' + 1) x' y' (by omega) (by simpa using hget')

/-- C7: the trailing-whitespace hint scans the pairs
`zip(content_lines[best.a:], old_lines)`; if no pair is rstrip-equal but
raw-different, no hint is emitted; at the first such pair (index `t₀`, all
earlier pairs failing the test) exactly one hint is emitted, naming the
1-based file line number `best.a + t₀ + 1`, and the scan goes no further. -/
theorem trailing_ws_hint_policy (contentLines oldLines : List PyStr) (besta : Nat) :
    ((∀ t x y, ((contentLines.drop besta).zip oldLines).get? t = some (x, y) →
        ¬(pyRstrip x = pyRstrip y ∧ x ≠ y)) →
      trailingWsHint contentLines oldLines besta = []) ∧
    (∀ t₀ x y, ((contentLines.drop besta).zip oldLines).get? t₀ = some (x, y) →
      pyRstrip x = pyRstrip y → x ≠ y →
      (∀ t x' y', t < t₀ →
        ((contentLines.drop besta).zip oldLines).get? t = some (x', y') →
        ¬(pyRstrip x' = pyRstrip y' ∧ x' ≠ y')) →
      trailingWsHint contentLines oldLines besta =
        [("Line ").data ++ (Nat.repr (besta + t₀ + 1)).data ++
          (": trailing whitespace differs").data]) := by
  constructor
  · intro h
    unfold trailingWsHint
    rw [twFirstIdx_none _ h]
  · intro t₀ x y hget hr hne hmin
    unfold trailingWsHint
    rw [twFirstIdx_least _ t₀ x y hget hr hne hmin]

theorem trailing_ws_hint_policy_witness :
    (((pySplitlines ("a \nb\n").data).drop 0).zip
        (pySplitlines ("a\n").data)).get? 0 = some (("a \n").data, ("a\n").data) ∧
    pyRstrip ("a \n").data = pyRstrip ("a\n").data ∧
    ("a \n").data ≠ ("a\n").data ∧
    trailingWsHint (pySplitlines ("a \nb\n").data) (pySplitlines ("a\n").data) 0 =
      [("Line ").data ++ (Nat.repr (0 + 0 + 1)).data ++
        (": trailing whitespace differs").data] :=
  ⟨by decide, by decide, by decide,
    (trailing_ws_hint_policy (pySplitlines ("a \nb\n").data)
      (pySplitlines ("a\n").data) 0).2 0 (("a \n").data) (("a\n").data)
      (by decide) (by decide) (by decide)
      (fun t x' y' ht _ => absurd ht (Nat.not_lt_zero t))⟩

lemma joinSep_cons (sep x : PyStr) (xs : List PyStr) :
    ∃ r, joinSep sep (x :: xs) = x ++ r := by
  cases xs with
  | nil => exact ⟨[], by simp [joinSep]⟩
  | cons y rest => exact ⟨sep ++ joinSep sep (y :: rest), by simp [joinSep]⟩

/-- C8 (amended): whenever `old_text` does not occur in the content, the edit
returns the NoMatch outcome carrying the diagnostic — unconditionally; if
additionally the content and old_text share at least one identical line and
`old_text` splits into fewer than 200 lines (below the autojunk threshold),
the diagnostic reports a match line number `n` with
`1 ≤ n ≤ number of lines of C`. -/
theorem noMatch_line_in_range (C S T : PyStr)
    (hne : pyContains C S = false) :
    applyEdit C S T = .noMatch (pySplitlines S).length (pySplitlines C).length
      (findBestMatch C S 5) ∧
    ((pySplitlines S).length < 200 →
      (∃ l, l ∈ pySplitlines C ∧ l ∈ pySplitlines S) →
      ∃ n rest, findBestMatch C S 5 =
          ("Closest match near line ").data ++ (Nat.repr n).data ++ (":").data ++ rest ∧
        1 ≤ n ∧ n ≤ (pySplitlines C).length) := by
  refine ⟨applyEdit_of_not_contains hne T, ?_⟩
  intro hlines hshare
  obtain ⟨l, hlC, hlS⟩ := hshare
  obtain ⟨i, hi⟩ := List.get?_of_mem hlC
  obtain ⟨j, hj⟩ := List.get?_of_mem hlS
  have hiL : i < (pySplitlines C).length := by
    rcases List.get?_eq_some.1 hi with ⟨hw, _⟩
    exact hw
  have hjL : j < (pySplitlines S).length := by
    rcases List.get?_eq_some.1 hj with ⟨hw, _⟩
    exact hw
  have hblock1 : isBlock (pySplitlines C) (pySplitlines S) i j 1 := by
    refine ⟨by omega, by omega, ?_⟩
    intro t ht
    have ht0 : t = 0 := by omega
    subst ht0
    rw [Nat.add_zero, Nat.add_zero, hi, hj]
  have hspec := findLongestMatchFull_spec (pySplitlines C) (pySplitlines S) hlines
  have hszpos : 1 ≤ (findLongestMatchFull (pySplitlines C) (pySplitlines S)).size :=
    hspec.2.1 i j 1 hblock1
  have hbound : (findLongestMatchFull (pySplitlines C) (pySplitlines S)).a +
      (findLongestMatchFull (pySplitlines C) (pySplitlines S)).size ≤
      (pySplitlines C).length := hspec.1.1
  have hS : S ≠ [] := by
    intro hnil
    subst hnil
    rw [pyContains_nil C] at hne
    exact Bool.noConfusion hne
  have holE : (pySplitlines S).isEmpty = false := by
    simpa using pySplitlines_ne_nil hS
  have hclE : (pySplitlines C).isEmpty = false := by
    have : pySplitlines C ≠ [] := by
      intro h
      rw [h] at hlC
      simp at hlC
    simpa using this
  have hsz0 : ¬((findLongestMatchFull (pySplitlines C) (pySplitlines S)).size = 0) := by
    omega
  have hfb : ∃ tail, findBestMatch C S 5 = joinSep ['\n']
      (headerLine (findLongestMatchFull (pySplitlines C) (pySplitlines S)).a :: tail) := by
    simp only [findBestMatch, holE, hclE, Bool.or_self, Bool.false_eq_true, if_false]
    rw [if_neg hsz0]
    exact ⟨_, rfl⟩
  obtain ⟨tail, htail⟩ := hfb
  obtain ⟨r, hr⟩ := joinSep_cons ['\n']
    (headerLine (findLongestMatchFull (pySplitlines C) (pySplitlines S)).a) tail
  refine ⟨(findLongestMatchFull (pySplitlines C) (pySplitlines S)).a + 1, r, ?_,
    by omega, by omega⟩
  rw [htail, hr]
  rfl

theorem noMatch_line_in_range_witness :
    pyContains ("a\nb\n").data ("b\nc\n").data = false ∧
    applyEdit ("a\nb\n").data ("b\nc\n").data ("x").data =
      .noMatch (pySplitlines ("b\nc\n").data).length
        (pySplitlines ("a\nb\n").data).length
        (findBestMatch ("a\nb\n").data ("b\nc\n").data 5) ∧
    (∃ n rest, findBestMatch ("a\nb\n").data ("b\nc\n").data 5 =
        ("Closest match near line ").data ++ (Nat.repr n).data ++ (":").data ++ rest ∧
      1 ≤ n ∧ n ≤ (pySplitlines ("a\nb\n").data).length) :=
  ⟨by decide,
   (noMatch_line_in_range (("a\nb\n").data) (("b\nc\n").data) (("x").data)
     (by decide)).1,
   (noMatch_line_in_range (("a\nb\n").data) (("b\nc\n").data) (("x").data)
     (by decide)).2 (by decide) ⟨("b\n").data, by decide, by decide⟩⟩

def c8xC : PyStr := ("x\n").data

def c8xS : PyStr := ("y\n").data ++ (List.replicate 199 (("x\n").data)).flatten

set_option maxRecDepth 8000 in
set_option maxHeartbeats 2000000 in
/-- C8 counterexample: the content `"x\n"` and the 200-line old_text (whose
line `"x\n"` is autojunk-popular) share the identical line `"x\n"`, yet the
diagnostic reports no match line number at all: the matcher returns a
zero-sized span, so the report is the "No matching lines found" preview
rather than a "Closest match near line n:" header with `n` in range. -/
theorem noMatch_line_in_range_counterexample :
    pyContains c8xC c8xS = false ∧
    ("x\n").data ∈ pySplitlines c8xC ∧ ("x\n").data ∈ pySplitlines c8xS ∧
    findBestMatch c8xC c8xS 5 =
      ("No matching lines found. File starts with:\n  1: x\n").data ∧
    ¬∃ n rest, findBestMatch c8xC c8xS 5 =
        ("Closest match near line ").data ++ (Nat.repr n).data ++ (":").data ++ rest ∧
      1 ≤ n ∧ n ≤ (pySplitlines c8xC).length := by
  have hval : findBestMatch c8xC c8xS 5 =
      ("No matching lines found. File starts with:\n  1: x\n").data := by decide
  refine ⟨by decide, by decide, by decide, hval, ?_⟩
  rintro ⟨n, rest, heq, _, _⟩
  rw [hval] at heq
  have h2 := congrArg List.head? heq
  have hC : ((("Closest match near line ").data ++ (Nat.repr n).data ++
      (":").data ++ rest)).head? = some 'C' := by
    rw [show ("Closest match near line ").data =
      'C' :: ("losest match near line ").data from rfl]
    simp
  rw [hC] at h2
  exact absurd h2 (by decide)

lemma isPrefixOf_append [BEq α] [LawfulBEq α] (l t : List α) :
    l.isPrefixOf (l ++ t) = true := by
  induction l with
  | nil => simp [List.isPrefixOf]
  | cons c rest ih => simp [List.isPrefixOf, ih]

lemma isPrefixOf_length_le {l₁ l₂ : List Char} (h : l₁.isPrefixOf l₂ = true) :
    l₁.length ≤ l₂.length := by
  induction l₁ generalizing l₂ with
  | nil => simp
  | cons c rest ih =>
      cases l₂ with
      | nil => simp [List.isPrefixOf] at h
      | cons d l₂' =>
          simp only [List.isPrefixOf, Bool.and_eq_true] at h
          have := ih h.2
          simp only [List.length_cons]
          omega

lemma resolveSegs_no_empty : ∀ (p acc : List PyStr),
    (∀ s ∈ acc, s ≠ []) → ∀ s ∈ resolveSegs acc p, s ≠ [] := by
  intro p
  induction p with
  | nil =>
      intro acc hacc s hs
      unfold resolveSegs at hs
      exact hacc s (by simpa using hs)
  | cons seg rest ih =>
      intro acc hacc s hs
      unfold resolveSegs at hs
      by_cases h1 : seg = (".").data ∨ seg = []
      · rw [if_pos h1] at hs
        exact ih acc hacc s hs
      · rw [if_neg h1] at hs
        by_cases h2 : seg = ("..").data
        · rw [if_pos h2] at hs
          refine ih acc.tail ?_ s hs
          intro u hu
          exact hacc u (List.mem_of_mem_tail hu)
        · rw [if_neg h2] at hs
          refine ih (seg :: acc) ?_ s hs
          intro u hu
          rcases List.mem_cons.1 hu with h3 | h3
          · subst h3
            intro hc
            exact h1 (Or.inr hc)
          · exact hacc u h3

lemma renderPath_isPrefixOf_append (r rest : List PyStr) :
    (renderPath r).isPrefixOf (renderPath (r ++ rest)) = true := by
  by_cases hrest : rest = []
  · subst hrest
    rw [List.append_nil]
    have h := isPrefixOf_append (renderPath r) []
    rwa [List.append_nil] at h
  · cases r with
    | nil =>
        cases rest with
        | nil => exact absurd rfl hrest
        | cons x t =>
            simp only [renderPath, List.nil_append, List.isEmpty_nil,
              List.isEmpty_cons, if_true, Bool.false_eq_true, if_false,
              List.map_cons, List.flatten_cons]
            simp [List.isPrefixOf]
    | cons r0 rt =>
        simp only [renderPath, List.isEmpty_cons, Bool.false_eq_true, if_false,
          List.append_eq, List.isEmpty_eq_true, List.append_eq_nil]
        rw [if_neg (by simp), List.map_append, List.flatten_append]
        exact isPrefixOf_append _ _

lemma renderPath_append_length_lt (resolved rest : List PyStr) (hrest : rest ≠ [])
    (hne : ∀ s ∈ rest, s ≠ []) :
    (renderPath resolved).length < (renderPath (resolved ++ rest)).length := by
  cases rest with
  | nil => exact absurd rfl hrest
  | cons x t =>
      have hx : x ≠ [] := hne x (List.mem_cons_self x t)
      have hx1 : 1 ≤ x.length := by
        cases x with
        | nil => exact absurd rfl hx
        | cons _ _ => simp
      cases resolved with
      | nil =>
          simp only [renderPath, List.nil_append, List.isEmpty_nil,
            List.isEmpty_cons, if_true, Bool.false_eq_true, if_false,
            List.map_cons, List.flatten_cons, List.length_cons,
            List.length_append, List.length_nil]
          omega
      | cons r0 rt =>
          simp only [renderPath, List.isEmpty_cons, Bool.false_eq_true, if_false]
          rw [if_neg (by simp), List.map_append, List.flatten_append,
            List.length_append]
          simp only [List.map_cons, List.flatten_cons, List.length_append,
            List.length_cons]
          omega

lemma isPrefixOf_iff_append {l₁ l₂ : List Char} :
    l₁.isPrefixOf l₂ = true ↔ ∃ t, l₂ = l₁ ++ t := by
  induction l₁ generalizing l₂ with
  | nil => simp [List.isPrefixOf]
  | cons c rest ih =>
      cases l₂ with
      | nil => simp [List.isPrefixOf]
      | cons d l₂' =>
          simp only [List.isPrefixOf, Bool.and_eq_true, beq_iff_eq, ih,
            List.cons_append, List.cons.injEq]
          constructor
          · rintro ⟨hcd, t, ht⟩
            exact ⟨t, hcd.symm, ht⟩
          · rintro ⟨t, hdc, ht⟩
            exact ⟨hdc.symm, t, ht⟩

lemma resolveSegs_mem : ∀ (p acc : List PyStr) (s : PyStr),
    s ∈ resolveSegs acc p → s ∈ acc ∨ s ∈ p := by
  intro p
  induction p with
  | nil =>
      intro acc s hs
      unfold resolveSegs at hs
      exact Or.inl (by simpa using hs)
  | cons seg rest ih =>
      intro acc s hs
      unfold resolveSegs at hs
      by_cases h1 : seg = (".").data ∨ seg = []
      · rw [if_pos h1] at hs
        rcases ih acc s hs with h | h
        · exact Or.inl h
        · exact Or.inr (List.mem_cons_of_mem _ h)
      · rw [if_neg h1] at hs
        by_cases h2 : seg = ("..").data
        · rw [if_pos h2] at hs
          rcases ih acc.tail s hs with h | h
          · exact Or.inl (List.mem_of_mem_tail h)
          · exact Or.inr (List.mem_cons_of_mem _ h)
        · rw [if_neg h2] at hs
          rcases ih (seg :: acc) s hs with h | h
          · rcases List.mem_cons.1 h with h3 | h3
            · exact Or.inr (h3 ▸ List.mem_cons_self _ _)
            · exact Or.inl h3
          · exact Or.inr (List.mem_cons_of_mem _ h)

/-- The `/`-joined rendering of a segment list, without the bare-root special
case; `renderPath` coincides with it on non-empty lists. -/
def renderTail (segs : List PyStr) : PyStr :=
  (segs.map (fun s => '/' :: s)).flatten

lemma renderTail_nil : renderTail [] = [] := rfl

lemma renderTail_cons (x : PyStr) (t : List PyStr) :
    renderTail (x :: t) = '/' :: (x ++ renderTail t) := by
  simp [renderTail]

lemma renderPath_eq_renderTail {r : List PyStr} (h : r ≠ []) :
    renderPath r = renderTail r := by
  unfold renderPath renderTail
  rw [if_neg (by simpa using h)]

lemma take_append_eq_of_append_eq {x y A B : List Char} (h : y ++ A = x ++ B)
    (hle : x.length ≤ y.length) : ∃ d, y = x ++ d := by
  have h2 := congrArg (List.take x.length) h
  rw [List.take_left] at h2
  rw [List.take_append_eq_append_take, Nat.sub_eq_zero_of_le hle, List.take_zero,
    List.append_nil] at h2
  have h3 := List.take_append_drop x.length y
  rw [h2] at h3
  exact ⟨y.drop x.length, h3.symm⟩

lemma append_eq_append_comparable {x y A B : List Char} (h : y ++ A = x ++ B) :
    (∃ d, y = x ++ d) ∨ (∃ d, x = y ++ d) := by
  by_cases hxy : x.length ≤ y.length
  · exact Or.inl (take_append_eq_of_append_eq h hxy)
  · exact Or.inr (take_append_eq_of_append_eq h.symm (by omega))

/-- Between two lists of non-empty, slash-free segments, the rendered strings
are in prefix relation exactly when the segment lists are (the second extends
the first), or when the second replaces the first's last segment by a strictly
longer segment extending it. -/
lemma renderTail_prefix_iff : ∀ (r p : List PyStr),
    (∀ s ∈ r, s ≠ []) → (∀ s ∈ p, s ≠ []) →
    (∀ s ∈ r, ('/' : Char) ∉ s) → (∀ s ∈ p, ('/' : Char) ∉ s) →
    ((∃ t, renderTail p = renderTail r ++ t) ↔
      ((∃ rest, p = r ++ rest) ∨
       (∃ rinit x y more, r = rinit ++ [x] ∧ p = rinit ++ y :: more ∧
         x ≠ y ∧ ∃ d, d ≠ [] ∧ y = x ++ d))) := by
  intro r
  induction r with
  | nil =>
      intro p _ _ _ _
      constructor
      · intro _
        exact Or.inl ⟨p, rfl⟩
      · intro _
        exact ⟨renderTail p, by rw [renderTail_nil, List.nil_append]⟩
  | cons x rt ih =>
      intro p hrE hpE hrS hpS
      cases p with
      | nil =>
          constructor
          · rintro ⟨t, ht⟩
            rw [renderTail_nil, renderTail_cons, List.cons_append] at ht
            exact absurd ht (by simp)
          · rintro (⟨rest, hrest⟩ | ⟨rinit, x₀, y₀, more, _, h2, _⟩)
            · exact absurd hrest (by simp)
            · exact absurd h2 (by simp)
      | cons y pt =>
          have hxne : x ≠ [] := hrE x (List.mem_cons_self _ _)
          have hyne : y ≠ [] := hpE y (List.mem_cons_self _ _)
          have hxS : ('/' : Char) ∉ x := hrS x (List.mem_cons_self _ _)
          have hyS : ('/' : Char) ∉ y := hpS y (List.mem_cons_self _ _)
          have hrE' : ∀ s ∈ rt, s ≠ [] := fun s hs => hrE s (List.mem_cons_of_mem _ hs)
          have hpE' : ∀ s ∈ pt, s ≠ [] := fun s hs => hpE s (List.mem_cons_of_mem _ hs)
          have hrS' : ∀ s ∈ rt, ('/' : Char) ∉ s :=
            fun s hs => hrS s (List.mem_cons_of_mem _ hs)
          have hpS' : ∀ s ∈ pt, ('/' : Char) ∉ s :=
            fun s hs => hpS s (List.mem_cons_of_mem _ hs)
          have hLHS : (∃ t, renderTail (y :: pt) = renderTail (x :: rt) ++ t) ↔
              ∃ t, y ++ renderTail pt = (x ++ renderTail rt) ++ t := by
            rw [renderTail_cons, renderTail_cons]
            constructor
            · rintro ⟨t, ht⟩
              rw [List.cons_append] at ht
              injection ht with _ h2
              exact ⟨t, h2⟩
            · rintro ⟨t, ht⟩
              exact ⟨t, by rw [List.cons_append, ht]⟩
          rw [hLHS]
          by_cases hxy : x = y
          · -- equal head segments: peel them off and use the induction hypothesis
            subst hxy
            have hL2 : (∃ t, x ++ renderTail pt = (x ++ renderTail rt) ++ t) ↔
                ∃ t, renderTail pt = renderTail rt ++ t := by
              constructor
              · rintro ⟨t, ht⟩
                rw [List.append_assoc] at ht
                exact ⟨t, List.append_cancel_left ht⟩
              · rintro ⟨t, ht⟩
                exact ⟨t, by rw [List.append_assoc, ht]⟩
            have hRHS : ((∃ rest, x :: pt = (x :: rt) ++ rest) ∨
                (∃ rinit x₀ y₀ more, x :: rt = rinit ++ [x₀] ∧
                  x :: pt = rinit ++ y₀ :: more ∧
                  x₀ ≠ y₀ ∧ ∃ d, d ≠ [] ∧ y₀ = x₀ ++ d)) ↔
                ((∃ rest, pt = rt ++ rest) ∨
                 (∃ rinit x₀ y₀ more, rt = rinit ++ [x₀] ∧ pt = rinit ++ y₀ :: more ∧
                   x₀ ≠ y₀ ∧ ∃ d, d ≠ [] ∧ y₀ = x₀ ++ d)) := by
              constructor
              · rintro (⟨rest, hrest⟩ | ⟨rinit, x₀, y₀, more, h1, h2, hne, d, hd, hyd⟩)
                · left
                  rw [List.cons_append] at hrest
                  injection hrest with _ h
                  exact ⟨rest, h⟩
                · rcases rinit with _ | ⟨z, rinit'⟩
                  · exfalso
                    rw [List.nil_append] at h1 h2
                    injection h1 with he1 _
                    injection h2 with he2 _
                    exact hne (he1.symm.trans he2)
                  · rw [List.cons_append] at h1 h2
                    injection h1 with _ h1'
                    injection h2 with _ h2'
                    exact Or.inr ⟨rinit', x₀, y₀, more, h1', h2', hne, d, hd, hyd⟩
              · rintro (⟨rest, hrest⟩ | ⟨rinit, x₀, y₀, more, h1, h2, hne, d, hd, hyd⟩)
                · exact Or.inl ⟨rest, by rw [List.cons_append, hrest]⟩
                · exact Or.inr ⟨x :: rinit, x₀, y₀, more, by rw [List.cons_append, h1],
                    by rw [List.cons_append, h2], hne, d, hd, hyd⟩
            rw [hL2, ih pt hrE' hpE' hrS' hpS', hRHS]
          · by_cases hpxy : x.isPrefixOf y = true
            · -- x is a proper prefix of y
              obtain ⟨d, hd⟩ := isPrefixOf_iff_append.1 hpxy
              have hdne : d ≠ [] := by
                intro h0
                subst h0
                rw [List.append_nil] at hd
                exact hxy hd.symm
              have hL2 : (∃ t, y ++ renderTail pt = (x ++ renderTail rt) ++ t) ↔
                  ∃ t, d ++ renderTail pt = renderTail rt ++ t := by
                constructor
                · rintro ⟨t, ht⟩
                  rw [hd, List.append_assoc, List.append_assoc] at ht
                  exact ⟨t, List.append_cancel_left ht⟩
                · rintro ⟨t, ht⟩
                  refine ⟨t, ?_⟩
                  rw [hd, List.append_assoc, List.append_assoc, ht]
              rw [hL2]
              cases rt with
              | nil =>
                  constructor
                  · intro _
                    exact Or.inr ⟨[], x, y, pt, rfl, rfl, hxy, d, hdne, hd⟩
                  · intro _
                    exact ⟨d ++ renderTail pt, by rw [renderTail_nil, List.nil_append]⟩
              | cons r2 rt' =>
                  constructor
                  · rintro ⟨t, ht⟩
                    exfalso
                    rw [renderTail_cons, List.cons_append] at ht
                    cases d with
                    | nil => exact hdne rfl
                    | cons d₀ d' =>
                        rw [List.cons_append] at ht
                        injection ht with h₀ _
                        apply hyS
                        rw [hd, h₀]
                        exact List.mem_append_right x (List.mem_cons_self _ _)
                  · rintro (⟨rest, hrest⟩ | ⟨rinit, x₀, y₀, more, h1, h2, hne, d₀, hd₀, hyd⟩)
                    · exfalso
                      rw [List.cons_append] at hrest
                      injection hrest with he _
                      exact hxy he.symm
                    · exfalso
                      rcases rinit with _ | ⟨z, rinit'⟩
                      · rw [List.nil_append] at h1
                        injection h1 with _ h1'
                        exact absurd h1' (by simp)
                      · rw [List.cons_append] at h1 h2
                        injection h1 with he1 _
                        injection h2 with he2 _
                        exact hxy (he1.trans he2.symm)
            · by_cases hpyx : y.isPrefixOf x = true
              · -- y is a proper prefix of x
                obtain ⟨d, hd⟩ := isPrefixOf_iff_append.1 hpyx
                have hdne : d ≠ [] := by
                  intro h0
                  subst h0
                  rw [List.append_nil] at hd
                  exact hxy hd
                constructor
                · rintro ⟨t, ht⟩
                  exfalso
                  rw [hd, List.append_assoc, List.append_assoc] at ht
                  have ht2 := List.append_cancel_left ht
                  cases pt with
                  | nil =>
                      rw [renderTail_nil] at ht2
                      cases d with
                      | nil => exact hdne rfl
                      | cons d₀ d' => exact absurd ht2 (by simp)
                  | cons p2 pt' =>
                      rw [renderTail_cons] at ht2
                      cases d with
                      | nil => exact hdne rfl
                      | cons d₀ d' =>
                          rw [List.cons_append] at ht2
                          injection ht2 with h₀ _
                          apply hxS
                          rw [hd, ← h₀]
                          exact List.mem_append_right y (List.mem_cons_self _ _)
                · rintro (⟨rest, hrest⟩ | ⟨rinit, x₀, y₀, more, h1, h2, hne, d₀, hd₀, hyd⟩)
                  · exfalso
                    rw [List.cons_append] at hrest
                    injection hrest with he _
                    exact hxy he.symm
                  · exfalso
                    rcases rinit with _ | ⟨z, rinit'⟩
                    · rw [List.nil_append] at h1 h2
                      injection h1 with he1 _
                      injection h2 with he2 _
                      have hlen : y₀.length = x₀.length + d₀.length := by
                        rw [hyd, List.length_append]
                      have hlen2 : x.length = y.length + d.length := by
                        rw [hd, List.length_append]
                      have hd₀pos : 0 < d₀.length := List.length_pos.2 hd₀
                      have hdpos : 0 < d.length := List.length_pos.2 hdne
                      rw [← he1, ← he2] at hlen
                      omega
                    · rw [List.cons_append] at h1 h2
                      injection h1 with he1 _
                      injection h2 with he2 _
                      exact hxy (he1.trans he2.symm)
              · -- incomparable head segments: neither side can be a prefix
                constructor
                · rintro ⟨t, ht⟩
                  exfalso
                  rw [List.append_assoc] at ht
                  rcases append_eq_append_comparable ht with ⟨d, hd⟩ | ⟨d, hd⟩
                  · exact hpxy (isPrefixOf_iff_append.2 ⟨d, hd⟩)
                  · exact hpyx (isPrefixOf_iff_append.2 ⟨d, hd⟩)
                · rintro (⟨rest, hrest⟩ | ⟨rinit, x₀, y₀, more, h1, h2, hne, d₀, hd₀, hyd⟩)
                  · exfalso
                    rw [List.cons_append] at hrest
                    injection hrest with he _
                    apply hpxy
                    rw [he]
                    exact isPrefixOf_iff_append.2 ⟨[], (List.append_nil _).symm⟩
                  · exfalso
                    rcases rinit with _ | ⟨z, rinit'⟩
                    · rw [List.nil_append] at h1 h2
                      injection h1 with he1 _
                      injection h2 with he2 _
                      apply hpxy
                      rw [he1, he2]
                      exact isPrefixOf_iff_append.2 ⟨d₀, hyd⟩
                    · rw [List.cons_append] at h1 h2
                      injection h1 with he1 _
                      injection h2 with he2 _
                      apply hpxy
                      rw [he1.trans he2.symm]
                      exact isPrefixOf_iff_append.2 ⟨[], (List.append_nil _).symm⟩

lemma renderPath_prefix_iff (r p : List PyStr)
    (hrE : ∀ s ∈ r, s ≠ []) (hpE : ∀ s ∈ p, s ≠ [])
    (hrS : ∀ s ∈ r, ('/' : Char) ∉ s) (hpS : ∀ s ∈ p, ('/' : Char) ∉ s) :
    ((renderPath r).isPrefixOf (renderPath p) = true ↔
      ((∃ rest, p = r ++ rest) ∨
       (∃ rinit x y more, r = rinit ++ [x] ∧ p = rinit ++ y :: more ∧
         x ≠ y ∧ ∃ d, d ≠ [] ∧ y = x ++ d))) := by
  cases r with
  | nil =>
      constructor
      · intro _
        exact Or.inl ⟨p, rfl⟩
      · intro _
        cases p with
        | nil => decide
        | cons q pt =>
            rw [renderPath_eq_renderTail (List.cons_ne_nil q pt), renderTail_cons]
            have hroot : renderPath [] = ['/'] := rfl
            rw [hroot]
            simp [List.isPrefixOf]
  | cons x rt =>
      cases p with
      | nil =>
          constructor
          · intro h
            exfalso
            rw [renderPath_eq_renderTail (List.cons_ne_nil x rt), renderTail_cons] at h
            have hroot : renderPath [] = ['/'] := rfl
            rw [hroot] at h
            have hx : x ≠ [] := hrE x (List.mem_cons_self _ _)
            cases x with
            | nil => exact hx rfl
            | cons x₀ x' => simp [List.isPrefixOf] at h
          · rintro (⟨rest, hrest⟩ | ⟨rinit, x₀, y₀, more, _, h2, _⟩)
            · exact absurd hrest (by simp)
            · exact absurd h2 (by simp)
      | cons y pt =>
          rw [renderPath_eq_renderTail (List.cons_ne_nil x rt),
            renderPath_eq_renderTail (List.cons_ne_nil y pt), isPrefixOf_iff_append]
          exact renderTail_prefix_iff (x :: rt) (y :: pt) hrE hpE hrS hpS

/-- C5 (amended): segments of real paths never contain `/` (they arise from
splitting the path string on `/`), so both segment lists are assumed
slash-free.  With an allowed root configured: (1) a path whose resolved
segments extend the root's resolved segments (it lies inside the root) is
allowed and returns the resolved absolute path; (2) a path that escapes the
root — its resolved segments do not extend the root's — yields
PermissionDenied, except exactly in the carve-out of part (3); (3) an escape
whose resolved segments replace the root's last segment by a different
segment that the root's last segment is a string prefix of (a sibling such as
`/a/b/../bc` under root `/a/b`) is wrongly allowed, because the containment
check is a string-prefix test `str(resolved).startswith(str(root))` on the
rendered paths. -/
theorem resolvePath_sandbox (path root : List PyStr)
    (hpS : ∀ s ∈ path, ('/' : Char) ∉ s) (hrS : ∀ s ∈ root, ('/' : Char) ∉ s) :
    (∀ rest, resolveSegs [] path = resolveSegs [] root ++ rest →
      resolvePathChecked path (some root) = .ok (resolveSegs [] path)) ∧
    ((∀ rest, resolveSegs [] path ≠ resolveSegs [] root ++ rest) →
      (∀ rinit x y more, ¬(resolveSegs [] root = rinit ++ [x] ∧
        resolveSegs [] path = rinit ++ y :: more ∧ x ≠ y ∧
        x.isPrefixOf y = true)) →
      resolvePathChecked path (some root) = .permissionDenied) ∧
    (∀ rinit x y more, resolveSegs [] root = rinit ++ [x] →
      resolveSegs [] path = rinit ++ y :: more → x ≠ y → x.isPrefixOf y = true →
      resolvePathChecked path (some root) = .ok (resolveSegs [] path)) := by
  have hRE : ∀ s ∈ resolveSegs [] root, s ≠ [] :=
    resolveSegs_no_empty root [] (by simp)
  have hPE : ∀ s ∈ resolveSegs [] path, s ≠ [] :=
    resolveSegs_no_empty path [] (by simp)
  have hRS : ∀ s ∈ resolveSegs [] root, ('/' : Char) ∉ s := by
    intro s hs
    rcases resolveSegs_mem root [] s hs with h | h
    · simp at h
    · exact hrS s h
  have hPS : ∀ s ∈ resolveSegs [] path, ('/' : Char) ∉ s := by
    intro s hs
    rcases resolveSegs_mem path [] s hs with h | h
    · simp at h
    · exact hpS s h
  have hiff := renderPath_prefix_iff (resolveSegs [] root) (resolveSegs [] path)
    hRE hPE hRS hPS
  refine ⟨?_, ?_, ?_⟩
  · intro rest hres
    have hpre : (renderPath (resolveSegs [] root)).isPrefixOf
        (renderPath (resolveSegs [] path)) = true :=
      hiff.2 (Or.inl ⟨rest, hres⟩)
    simp only [resolvePathChecked]
    rw [if_pos hpre]
  · intro hesc hsib
    have hpre : ¬((renderPath (resolveSegs [] root)).isPrefixOf
        (renderPath (resolveSegs [] path)) = true) := by
      intro hpre
      rcases hiff.1 hpre with ⟨rest, hrest⟩ |
        ⟨rinit, x, y, more, h1, h2, hxy, d, _, hyd⟩
      · exact hesc rest hrest
      · exact hsib rinit x y more
          ⟨h1, h2, hxy, isPrefixOf_iff_append.2 ⟨d, hyd⟩⟩
    simp only [resolvePathChecked]
    rw [if_neg hpre]
  · intro rinit x y more h1 h2 hxy hpxy
    obtain ⟨d, hd⟩ := isPrefixOf_iff_append.1 hpxy
    have hdne : d ≠ [] := by
      intro h0
      subst h0
      rw [List.append_nil] at hd
      exact hxy hd.symm
    have hpre : (renderPath (resolveSegs [] root)).isPrefixOf
        (renderPath (resolveSegs [] path)) = true :=
      hiff.2 (Or.inr ⟨rinit, x, y, more, h1, h2, hxy, d, hdne, hd⟩)
    simp only [resolvePathChecked]
    rw [if_pos hpre]

theorem resolvePath_sandbox_witness :
    (∀ s ∈ [("a").data, ("b").data, ("c").data], ('/' : Char) ∉ s) ∧
    (∀ s ∈ [("a").data, ("b").data], ('/' : Char) ∉ s) ∧
    resolvePathChecked [("a").data, ("b").data, ("c").data]
      (some [("a").data, ("b").data]) =
      .ok (resolveSegs [] [("a").data, ("b").data, ("c").data]) ∧
    resolvePathChecked [("a").data, ("b").data, ("..").data, ("c").data]
      (some [("a").data, ("b").data]) = .permissionDenied ∧
    resolvePathChecked [("a").data, ("b").data, ("..").data, ("bc").data]
      (some [("a").data, ("b").data]) =
      .ok (resolveSegs [] [("a").data, ("b").data, ("..").data, ("bc").data]) :=
  ⟨by decide, by decide,
   (resolvePath_sandbox [("a").data, ("b").data, ("c").data]
      [("a").data, ("b").data] (by decide) (by decide)).1 [("c").data] (by decide),
   (resolvePath_sandbox [("a").data, ("b").data, ("..").data, ("c").data]
      [("a").data, ("b").data] (by decide) (by decide)).2.1
     (by
       intro rest h
       rw [show resolveSegs []
             [("a").data, ("b").data, ("..").data, ("c").data] =
           [("a").data, ("c").data] from by decide,
         show resolveSegs [] [("a").data, ("b").data] =
           [("a").data, ("b").data] from by decide,
         List.cons_append, List.cons_append, List.nil_append] at h
       injection h with _ h'
       injection h' with h'' _
       exact absurd h'' (by decide))
     (by
       rintro rinit x y more ⟨h1, h2, hpxy⟩
       rw [show resolveSegs [] [("a").data, ("b").data] =
           [("a").data, ("b").data] from by decide] at h1
       rw [show resolveSegs []
             [("a").data, ("b").data, ("..").data, ("c").data] =
           [("a").data, ("c").data] from by decide] at h2
       rcases rinit with _ | ⟨z, rtl⟩
       · rw [List.nil_append] at h1
         injection h1 with _ htl
         exact absurd htl (by simp)
       · rcases rtl with _ | ⟨w, rtl2⟩
         · rw [List.cons_append, List.nil_append] at h1 h2
           injection h1 with _ h1'
           injection h2 with _ h2'
           injection h1' with hx1 _
           injection h2' with hy1 _
           rw [← hx1, ← hy1] at hpxy
           exact absurd hpxy.2 (by decide)
         · rw [List.cons_append, List.cons_append] at h1
           injection h1 with _ h1'
           injection h1' with _ h1''
           exact absurd h1''.symm (by simp)),
   (resolvePath_sandbox [("a").data, ("b").data, ("..").data, ("bc").data]
      [("a").data, ("b").data] (by decide) (by decide)).2.2
     [("a").data] (("b").data) (("bc").data) [] (by decide) (by decide)
     (by decide) (by decide)⟩

def c5root : List PyStr := [("a").data, ("b").data]

def c5path : List PyStr := [("a").data, ("b").data, ("..").data, ("bc").data]

/-- C5 counterexample: `/a/b/../bc` contains a `..` segment and resolves to
`/a/bc`, which is outside the allowed root `/a/b` (the root's segments are
not an initial segment of the resolved path), yet `_resolve_path` allows it:
the containment check is `str(resolved).startswith(str(allowed_dir))` and the
string `"/a/bc"` starts with `"/a/b"`. -/
theorem resolvePath_sandbox_counterexample :
    ("..").data ∈ c5path ∧
    resolveSegs [] c5path = [("a").data, ("bc").data] ∧
    (∀ rest, resolveSegs [] c5path ≠ resolveSegs [] c5root ++ rest) ∧
    resolvePathChecked c5path (some c5root) = .ok [("a").data, ("bc").data] := by
  refine ⟨by decide, by decide, ?_, by decide⟩
  intro rest hcon
  have h1 : (resolveSegs [] c5root).isPrefixOf (resolveSegs [] c5path) = true := by
    rw [hcon]
    exact isPrefixOf_append _ _
  rw [show (resolveSegs [] c5root).isPrefixOf (resolveSegs [] c5path) = false
    from by decide] at h1
  exact Bool.noConfusion h1

lemma buildParams_foldl (ps : List PyParam)
    (acc : List (String × String × String) × List String) :
    ps.foldl
      (fun acc p =>
        if p.name = "self" ∨ p.name = "cls" then acc
        else
          (acc.1 ++ [(p.name, jsonTypeOf p.ann, p.name)],
           acc.2 ++ if p.hasDefault then [] else [p.name])) acc =
    (acc.1 ++ (ps.filter
        (fun p => decide (¬(p.name = "self" ∨ p.name = "cls")))).map
        (fun p => (p.name, jsonTypeOf p.ann, p.name)),
     acc.2 ++ ((ps.filter
        (fun p => decide (¬(p.name = "self" ∨ p.name = "cls")))).filter
        (fun p => !p.hasDefault)).map (fun p => p.name)) := by
  induction ps generalizing acc with
  | nil => simp
  | cons p rest ih =>
      by_cases h : p.name = "self" ∨ p.name = "cls"
      · have hb : (decide (¬(p.name = "self" ∨ p.name = "cls"))) = false := by
          simp [h]
        simp only [List.foldl_cons, if_pos h, List.filter_cons, hb,
          Bool.false_eq_true, if_false]
        exact ih acc
      · have hb : (decide (¬(p.name = "self" ∨ p.name = "cls"))) = true := by
          simp [h]
        simp only [List.foldl_cons, if_neg h, List.filter_cons, hb, if_true]
        rw [ih]
        by_cases hd : p.hasDefault
        · simp [hd, List.filter_cons, List.append_assoc]
        · simp [hd, List.filter_cons, List.append_assoc]

/-- C9 (amended): the synthesized schema walks the declared parameters in
order, skipping those named `self` or `cls`; every other parameter's
annotation is mapped through the fixed table (str→string, int→integer,
float→number, bool→boolean, list→array, dict→object) with "string" for
unannotated or unmapped annotations, and exactly the non-skipped parameters
without a default value are listed in `required`, in declaration order. -/
theorem buildParams_schema (ps : List PyParam) :
    buildParams ps =
      ((ps.filter (fun p => decide (¬(p.name = "self" ∨ p.name = "cls")))).map
        (fun p => (p.name, jsonTypeOf p.ann, p.name)),
       ((ps.filter (fun p => decide (¬(p.name = "self" ∨ p.name = "cls")))).filter
        (fun p => !p.hasDefault)).map (fun p => p.name)) ∧
    jsonTypeOf .pystr = "string" ∧ jsonTypeOf .pyint = "integer" ∧
    jsonTypeOf .pyfloat = "number" ∧ jsonTypeOf .pybool = "boolean" ∧
    jsonTypeOf .pylist = "array" ∧ jsonTypeOf .pydict = "object" ∧
    jsonTypeOf .empty = "string" ∧ (∀ s, jsonTypeOf (.otherAnn s) = "string") := by
  refine ⟨?_, rfl, rfl, rfl, rfl, rfl, rfl, rfl, fun s => rfl⟩
  unfold buildParams
  rw [buildParams_foldl]
  simp

/-- C9 counterexample: a parameter named `self` with no default value is
declared, but `_build_params` skips it: the schema lists nothing in
`properties` or `required`, contradicting the claim that every declared
parameter without a default is listed as required. -/
theorem buildParams_self_counterexample :
    buildParams [{ name := "self", ann := .empty, hasDefault := false }] = ([], []) ∧
    ¬("self" ∈ (buildParams
      [{ name := "self", ann := .empty, hasDefault := false }]).2) :=
  ⟨by decide, by decide⟩
